import Mathlib

set_option maxHeartbeats 1000000

/-!
Shallow embedding of the gedcompy library (files gedcom/__init__.py,
gedcom/element.py, gedcom/individual.py, gedcom/register.py).

Conventions of the embedding:
* Python strings are Lean `String`s; fields that may be `None` are `Option`s.
* Python exceptions are modelled by the `PyErr` error type together with
  `Except PyErr`.
* Mutable tree references are modelled by explicit trees (`Element`); where
  the Python code holds references into a tree under construction (the
  parser's `level_to_obj` dictionary and the pointer table), the model holds
  index paths into the forest instead.
* Back references (`parent_element`, `parent_id`, `gedcom_file`) are cyclic
  and carry no information that is not recoverable from the tree and the
  document, so they are not fields of the model.
-/

/-- Python exception kinds raised by the modelled code. -/
inductive PyErr where
  | typeError
  | notImplementedError
  | keyError
  | indexError
  | valueError
  | attributeError
  | exception
deriving DecidableEq, Repr

/-- Model of `element.Element`: level, tag, value, id and the ordered list
of child elements (`child_elements`).  `level` is `Option Int` (`None` or a
Python int), `value` and `id` are `Option String`. -/
inductive Element where
  | mk (level : Option Int) (tag : String) (value : Option String)
      (id : Option String) (child_elements : List Element)

/-- The `level` attribute. -/
def Element.level : Element → Option Int
  | .mk l _ _ _ _ => l

/-- The `tag` attribute. -/
def Element.tag : Element → String
  | .mk _ t _ _ _ => t

/-- The `value` attribute. -/
def Element.value : Element → Option String
  | .mk _ _ v _ _ => v

/-- The `id` attribute. -/
def Element.id : Element → Option String
  | .mk _ _ _ i _ => i

/-- The `child_elements` attribute. -/
def Element.child_elements : Element → List Element
  | .mk _ _ _ _ cs => cs

/-- Replace the child list of an element, keeping the other fields. -/
def Element.withChildren : Element → List Element → Element
  | .mk l t v i _, cs => .mk l t v i cs

theorem Element.withChildren_self (e : Element) :
    e.withChildren e.child_elements = e := by
  cases e
  rfl

/-- Result of `Element.__getitem__` (element.py lines 49-64): the Python
method raises `IndexError` when no child has the tag, returns the single
child when exactly one has it, and returns the whole list of matching
children when several have it. -/
inductive GetR where
  | missing
  | single (e : Element)
  | multiple (es : List Element)

/-- Model of `Element.__getitem__` (element.py lines 49-64). -/
def Element.getItem (e : Element) (key : String) : GetR :=
  match e.child_elements.filter (fun c => c.tag == key) with
  | [] => .missing
  | [c] => .single c
  | cs => .multiple cs

/-- Model of `Element.get_list` (element.py lines 112-120). -/
def Element.get_list (e : Element) (tag : String) : List Element :=
  e.child_elements.filter (fun c => c.tag == tag)

/-- Model of `Element.__contains__` (element.py lines 78-84). -/
def Element.containsTag (e : Element) (key : String) : Bool :=
  e.child_elements.any (fun c => c.tag == key)

mutual
/-- Recursive relabelling used by `Element.set_levels_downward`
(element.py lines 122-129): set this element's level to `n` and each
child's level to one more than its parent's, depth first. -/
def setFrom (n : Int) : Element → Element
  | .mk _ t v i cs => .mk (some n) t v i (setFromList (n + 1) cs)

def setFromList (n : Int) : List Element → List Element
  | [] => []
  | c :: cs => setFrom n c :: setFromList n cs
end

/-- Model of `Element.set_levels_downward` (element.py lines 122-129):
raises `TypeError` when the element's own `level` is not an integer
(`isinstance(self.level, numbers.Integral)` is false exactly for the
non-int values, in our model `none`); otherwise sets each child's level to
`self.level + 1` and recurses.  The root's own level is left unchanged. -/
def Element.set_levels_downward (e : Element) : Except PyErr Element :=
  match e.level with
  | none => .error .typeError
  | some n => .ok (.mk (some n) e.tag e.value e.id (setFromList (n + 1) e.child_elements))

mutual
/-- Decidable check that every parent/child pair in the tree satisfies
`level child = level parent + 1` and every level is set. -/
def levelsConsistent : Element → Bool
  | .mk l _ _ _ cs =>
    match l with
    | none => false
    | some n => levelsConsistentList (n + 1) cs

def levelsConsistentList : Int → List Element → Bool
  | _, [] => true
  | n, c :: cs => (c.level == some n) && levelsConsistent c && levelsConsistentList n cs
end

mutual
theorem levelsConsistent_setFrom (n : Int) (e : Element) :
    levelsConsistent (setFrom n e) = true := by
  cases e with
  | mk l t v i cs =>
    simp only [setFrom, levelsConsistent]
    exact levelsConsistentList_setFromList (n + 1) cs

theorem levelsConsistentList_setFromList (n : Int) (cs : List Element) :
    levelsConsistentList n (setFromList n cs) = true := by
  cases cs with
  | nil => rfl
  | cons c cs' =>
    simp only [setFromList, levelsConsistentList]
    have h1 : ((setFrom n c).level == some n) = true := by
      cases c
      simp [setFrom, Element.level]
    have h2 := levelsConsistent_setFrom n c
    have h3 := levelsConsistentList_setFromList n cs'
    simp [h1, h2, h3]
end

/-- Model of Python `str.lower()` (ASCII case folding, which is all the
code compares against). -/
def pyLower (s : String) : String := String.mk (s.data.map Char.toLower)

/-- Model of `cons.value or ''` in `Note.full_text`: `None` and the empty
string are falsy and give `''`. -/
def pyValueOr (v : Option String) : String := v.getD ""

/-- The loop of `Note.full_text` (gedcom/__init__.py lines 307-314):
`CONT` children append a newline and their value, `CONC` children append
their value directly, any other tag raises `ValueError`. -/
def fullTextLoop : String → List Element → Except PyErr String
  | acc, [] => .ok acc
  | acc, c :: cs =>
    if c.tag = "CONT" then fullTextLoop ((acc ++ "\n") ++ pyValueOr c.value) cs
    else if c.tag = "CONC" then fullTextLoop (acc ++ pyValueOr c.value) cs
    else .error .valueError

/-- Model of `Note.full_text` (gedcom/__init__.py lines 303-316).
`result = "" + self.value or ''` raises `TypeError` when `self.value` is
`None` (`"" + None` is ill typed in Python); otherwise the initial
accumulator is `("" + value) or ''`, which equals `value`. -/
def Note.full_text (e : Element) : Except PyErr String :=
  match e.value with
  | none => .error .typeError
  | some v => fullTextLoop (if ("" ++ v) = "" then "" else "" ++ v) e.child_elements

/-- Concatenation of a list of strings (explicit recursion so that the
cons equation is definitional). -/
def strConcat : List String → String
  | [] => ""
  | s :: ss => s ++ strConcat ss

/-- The text a single `CONT`/`CONC` child contributes to `full_text`. -/
def contConcPiece (c : Element) : String :=
  if c.tag = "CONT" then "\n" ++ pyValueOr c.value else pyValueOr c.value

/-- Python whitespace characters handled by `str.strip()` (ASCII). -/
def isPyWS (c : Char) : Bool :=
  c = ' ' || c = '\t' || c = '\n' || c = '\r' || c = '\x0b' || c = '\x0c'

/-- Model of Python `str.strip()` on a character list. -/
def pstripCs (l : List Char) : List Char :=
  ((l.dropWhile isPyWS).reverse.dropWhile isPyWS).reverse

/-- Model of Python `str.strip()`. -/
def pyStrip (s : String) : String := String.mk (pstripCs s.data)

/-- Model of Python `str.split(sep)` for a one-character separator, on
character lists (structural recursion so that it evaluates by `rfl`). -/
def splitOnChar (sep : Char) : List Char → List (List Char)
  | [] => [[]]
  | c :: cs =>
    let r := splitOnChar sep cs
    if c = sep then [] :: r
    else
      match r with
      | [] => [[c]]
      | h :: t => (c :: h) :: t

/-- Python `value.split("/")` as a list of strings. -/
def pySplitSlash (v : String) : List String :=
  (splitOnChar '/' v.data).map String.mk

/-- Name extraction shared by `Individual.name` and `Individual.aka`
(individual.py lines 54-61 and 78-84): if the NAME element has no direct
value (`value in ('', None)`), read the GIVN and SURN children's values
(`IndexError` if such a child is missing, and a list has no `.value`
attribute when several children share the tag); otherwise split the value
on "/" into exactly three parts (`ValueError` otherwise) and strip the
first two. -/
def extractNameParts (name : Element) : Except PyErr (Option String × Option String) :=
  if name.value = some "" ∨ name.value = none then
    match name.getItem "GIVN" with
    | .missing => .error .indexError
    | .multiple _ => .error .attributeError
    | .single g =>
      match name.getItem "SURN" with
      | .missing => .error .indexError
      | .multiple _ => .error .attributeError
      | .single s => .ok (g.value, s.value)
  else
    match name.value with
    | none => .error .valueError
    | some v =>
      match pySplitSlash v with
      | [f, l, _] => .ok (some (pyStrip f), some (pyStrip l))
      | _ => .error .valueError

/-- The loop of `Individual.aka` over the NAME children (individual.py
lines 75-85): keep, in order, the extracted names of those NAME children
whose TYPE child's value lowercases to "aka".  `name['TYPE']` with several
TYPE children yields a list, which has no `.value` (AttributeError), and a
`None` value has no `.lower()` (AttributeError). -/
def akaLoop : List Element → List (Option String × Option String) →
    Except PyErr (List (Option String × Option String))
  | [], acc => .ok acc
  | name :: rest, acc =>
    if name.containsTag "TYPE" then
      match name.getItem "TYPE" with
      | .missing => .error .indexError
      | .multiple _ => .error .attributeError
      | .single t =>
        match t.value with
        | none => .error .attributeError
        | some tv =>
          if pyLower tv = "aka" then
            match extractNameParts name with
            | .error er => .error er
            | .ok p => akaLoop rest (acc ++ [p])
          else akaLoop rest acc
    else akaLoop rest acc

/-- Model of `Individual.aka` (individual.py lines 64-87): `self['NAME']`
raises IndexError when there is no NAME child; when there is exactly one
NAME child the result is not a list, the `isinstance(name_tag, list)`
branch is skipped, and the empty list is returned; only with two or more
NAME children is the aka loop run. -/
def Individual.aka (ind : Element) : Except PyErr (List (Option String × Option String)) :=
  match ind.getItem "NAME" with
  | .missing => .error .indexError
  | .single _ => .ok []
  | .multiple names => akaLoop names []

/-- Model of `Individual.sex` (individual.py lines 99-108):
`self['SEX'].value`.  No SEX child raises IndexError; several SEX children
yield a list, and `.value` on a list raises AttributeError. -/
def Individual.sex (p : Element) : Except PyErr (Option String) :=
  match p.getItem "SEX" with
  | .missing => .error .indexError
  | .multiple _ => .error .attributeError
  | .single c => .ok c.value

/-- Model of `Individual.is_male` (individual.py lines 166-169):
`self.sex.lower() == 'm'`; a `None` sex value has no `.lower()`. -/
def Individual.is_male (p : Element) : Except PyErr Bool :=
  match Individual.sex p with
  | .error er => .error er
  | .ok none => .error .attributeError
  | .ok (some v) => .ok (pyLower v = "m")

/-- Model of `Individual.is_female` (individual.py lines 161-164). -/
def Individual.is_female (p : Element) : Except PyErr Bool :=
  match Individual.sex p with
  | .error er => .error er
  | .ok none => .error .attributeError
  | .ok (some v) => .ok (pyLower v = "f")

/-- Model of `GedcomFile` (gedcom/__init__.py lines 18-26) for the
document-level operations: the root element list, the pointer table (an
association list, since element references are modelled by element
values), and the id-allocation counter `next_free_id` (initially 1). -/
structure GedcomFile where
  root_elements : List Element
  pointers : List (String × Element)
  next_free_id : Nat

/-- Model of `GedcomFile.__getitem__` (gedcom/__init__.py lines 32-41):
look an id up in the pointer table. -/
def GedcomFile.lookup (g : GedcomFile) (key : String) : Option Element :=
  (g.pointers.find? (fun p => p.1 == key)).map (fun p => p.2)

/-- Model of `Spouse.as_individual` (gedcom/__init__.py lines 220-228):
dereference the element's value through the file's pointer table;
`KeyError` when the value is `None` or is not in the table. -/
def Spouse.as_individual (g : GedcomFile) (s : Element) : Except PyErr Element :=
  match s.value with
  | none => .error .keyError
  | some v =>
    match g.lookup v with
    | none => .error .keyError
    | some e => .ok e

/-- Model of `Family.partners` (gedcom/__init__.py lines 207-213):
HUSB children followed by WIFE children. -/
def Family.partners (fam : Element) : List Element :=
  fam.get_list "HUSB" ++ fam.get_list "WIFE"

/-- Helper for `Individual.parents`: `[p.as_individual() for p in partners]`,
evaluated left to right, first exception propagating. -/
def mapAsIndividual (g : GedcomFile) : List Element → Except PyErr (List Element)
  | [] => .ok []
  | p :: ps =>
    match Spouse.as_individual g p with
    | .error er => .error er
    | .ok e =>
      match mapAsIndividual g ps with
      | .error er => .error er
      | .ok es => .ok (e :: es)

/-- Model of `Individual.parents` (individual.py lines 9-28): if a FAMC
child exists, dereference its value to the family of origin (the CHIL
membership check in the source is a no-op: its failure branch is `pass`)
and map `as_individual` over the family's partners; otherwise the empty
list. -/
def Individual.parents (g : GedcomFile) (ind : Element) : Except PyErr (List Element) :=
  if ind.containsTag "FAMC" then
    match ind.getItem "FAMC" with
    | .missing => .error .indexError
    | .multiple _ => .error .attributeError
    | .single famc =>
      match famc.value with
      | none => .error .keyError
      | some fid =>
        match g.lookup fid with
        | none => .error .keyError
        | some family => mapAsIndividual g (Family.partners family)
  else .ok []

/-- The comprehension `[p for p in self.parents if p.is_male]`
(individual.py line 133): the predicate is evaluated for every parent in
order, and the first exception propagates. -/
def filterMales : List Element → Except PyErr (List Element)
  | [] => .ok []
  | p :: ps =>
    match Individual.is_male p with
    | .error er => .error er
    | .ok b =>
      match filterMales ps with
      | .error er => .error er
      | .ok r => .ok (if b then p :: r else r)

/-- The comprehension `[p for p in self.parents if p.is_female]`
(individual.py line 153). -/
def filterFemales : List Element → Except PyErr (List Element)
  | [] => .ok []
  | p :: ps =>
    match Individual.is_female p with
    | .error er => .error er
    | .ok b =>
      match filterFemales ps with
      | .error er => .error er
      | .ok r => .ok (if b then p :: r else r)

/-- Model of `Individual.father` (individual.py lines 121-139): filter the
parents by `is_male`; `None` for zero matches, the parent for one,
`NotImplementedError` for more. -/
def Individual.father (g : GedcomFile) (ind : Element) : Except PyErr (Option Element) :=
  match Individual.parents g ind with
  | .error er => .error er
  | .ok ps =>
    match filterMales ps with
    | .error er => .error er
    | .ok [] => .ok none
    | .ok [p] => .ok (some p)
    | .ok _ => .error .notImplementedError

/-- Model of `Individual.mother` (individual.py lines 141-159). -/
def Individual.mother (g : GedcomFile) (ind : Element) : Except PyErr (Option Element) :=
  match Individual.parents g ind with
  | .error er => .error er
  | .ok ps =>
    match filterFemales ps with
    | .error er => .error er
    | .ok [] => .ok none
    | .ok [p] => .ok (some p)
    | .ok _ => .error .notImplementedError

/-- The candidate id string `"@{prefix}{num}@"` built by
`GedcomFile.add_element` (gedcom/__init__.py line 67). -/
def mkPointerId (pfx : String) (n : Nat) : String :=
  "@" ++ pfx ++ toString n ++ "@"

/-- The allocation loop of `GedcomFile.add_element` (gedcom/__init__.py
lines 66-79): scan candidates `@{prefix}{next_free_id}@`, incrementing
`next_free_id` past every taken candidate and also past the assigned one;
`for step in range(1, 1000000)` gives 999999 attempts before the
defensive `Exception`.  Returns the assigned id and the new counter. -/
def allocateId (ptrs : List (String × Element)) (pfx : String) :
    Nat → Nat → Except PyErr (String × Nat)
  | 0, _ => .error .exception
  | fuel + 1, nfi =>
    let potential := mkPointerId pfx nfi
    if ptrs.any (fun p => p.1 == potential) then allocateId ptrs pfx fuel (nfi + 1)
    else .ok (potential, nfi + 1)

/-- Overwrite-or-insert into the pointer table (`self.pointers[id] = element`). -/
def ptrInsert (ptrs : List (String × Element)) (key : String) (e : Element) :
    List (String × Element) :=
  (key, e) :: ptrs.filter (fun p => p.1 != key)

/-- The unconditional tail of `GedcomFile.add_element` (gedcom/__init__.py
lines 81-85): register the element by id when it has a truthy one, and
append it to the root list when its level is 0. -/
def GedcomFile.registerEl (g : GedcomFile) (e : Element) : GedcomFile :=
  let ptrs :=
    match e.id with
    | some i => if i = "" then g.pointers else ptrInsert g.pointers i e
    | none => g.pointers
  let roots := if e.level = some 0 then g.root_elements ++ [e] else g.root_elements
  { root_elements := roots, pointers := ptrs, next_free_id := g.next_free_id }

/-- Model of `GedcomFile.add_element` (gedcom/__init__.py lines 43-85).
When the element's level is set, only the registration tail runs.  When it
is unset, the element must be an Individual or Family (dispatch classes
correspond to the INDI and FAM tags), its level becomes 0, levels are
recomputed downward, and an id is allocated with prefix I or F; the
mutated element is returned alongside the new file state. -/
def GedcomFile.add_element (g : GedcomFile) (e : Element) :
    Except PyErr (GedcomFile × Element) :=
  match e.level with
  | some _ => .ok (g.registerEl e, e)
  | none =>
    if e.tag = "INDI" ∨ e.tag = "FAM" then
      let pfx := if e.tag = "INDI" then "I" else "F"
      match allocateId g.pointers pfx 999999 g.next_free_id with
      | .error er => .error er
      | .ok (pid, nfi) =>
        let e2 : Element :=
          .mk (some 0) e.tag e.value (some pid) (setFromList 1 e.child_elements)
        let g2 : GedcomFile :=
          { root_elements := g.root_elements, pointers := g.pointers, next_free_id := nfi }
        .ok (g2.registerEl e2, e2)
    else .error .typeError

/-- Folding `add_element` over a list of fresh elements (a sequence of
add-root operations), keeping only the file state. -/
def addAll (g : GedcomFile) : List Element → Except PyErr GedcomFile
  | [] => .ok g
  | e :: es =>
    match g.add_element e with
    | .error er => .error er
    | .ok (g1, _) => addAll g1 es

theorem fullTextLoop_ok (cs : List Element) :
    ∀ acc, (∀ c ∈ cs, c.tag = "CONT" ∨ c.tag = "CONC") →
      fullTextLoop acc cs = .ok (acc ++ strConcat (cs.map contConcPiece)) := by
  induction cs with
  | nil =>
    intro acc _
    simp [fullTextLoop, strConcat, String.append_empty]
  | cons c cs' ih =>
    intro acc h
    have hc := h c (List.mem_cons_self c cs')
    have hrest : ∀ c' ∈ cs', c'.tag = "CONT" ∨ c'.tag = "CONC" :=
      fun c' hc' => h c' (List.mem_cons_of_mem c hc')
    rcases hc with hct | hcc
    · rw [fullTextLoop, if_pos hct, ih _ hrest]
      simp [strConcat, contConcPiece, hct, String.append_assoc]
    · by_cases hct : c.tag = "CONT"
      · rw [fullTextLoop, if_pos hct, ih _ hrest]
        simp [strConcat, contConcPiece, hct, String.append_assoc]
      · rw [fullTextLoop, if_neg hct, if_pos hcc, ih _ hrest]
        simp [strConcat, contConcPiece, hct, String.append_assoc]

theorem fullTextLoop_err (cs : List Element) :
    ∀ acc, (∃ c ∈ cs, c.tag ≠ "CONT" ∧ c.tag ≠ "CONC") →
      fullTextLoop acc cs = .error .valueError := by
  induction cs with
  | nil =>
    intro acc h
    obtain ⟨c, hc, -⟩ := h
    exact absurd hc (List.not_mem_nil c)
  | cons c cs' ih =>
    intro acc h
    by_cases hct : c.tag = "CONT"
    · rw [fullTextLoop, if_pos hct]
      apply ih
      obtain ⟨d, hd, hdt⟩ := h
      rcases List.mem_cons.mp hd with rfl | hd'
      · exact absurd hct hdt.1
      · exact ⟨d, hd', hdt⟩
    · by_cases hcc : c.tag = "CONC"
      · rw [fullTextLoop, if_neg hct, if_pos hcc]
        apply ih
        obtain ⟨d, hd, hdt⟩ := h
        rcases List.mem_cons.mp hd with rfl | hd'
        · exact absurd hcc hdt.2
        · exact ⟨d, hd', hdt⟩
      · rw [fullTextLoop, if_neg hct, if_neg hcc]

/-- C6: for a Note element with a string value whose children all carry
tag CONT or CONC, `full_text` returns the note's own value with each CONT
child's value appended after a newline and each CONC child's value
appended directly, strictly left to right in document order; and it fails
with ValueError (the unexpected-tag error) as soon as any child carries
another tag. -/
theorem c6_note_full_text (e : Element) (v : String) (hv : e.value = some v) :
    ((∀ c ∈ e.child_elements, c.tag = "CONT" ∨ c.tag = "CONC") →
      Note.full_text e = .ok (v ++ strConcat (e.child_elements.map contConcPiece))) ∧
    ((∃ c ∈ e.child_elements, c.tag ≠ "CONT" ∧ c.tag ≠ "CONC") →
      Note.full_text e = .error .valueError) := by
  have hinit : (if (("" ++ v) : String) = "" then "" else "" ++ v) = v := by
    rw [String.empty_append]
    by_cases h : v = ""
    · rw [if_pos h, h]
    · rw [if_neg h]
  constructor
  · intro hall
    rw [Note.full_text, hv]
    simp only [hinit]
    exact fullTextLoop_ok _ v hall
  · intro hbad
    rw [Note.full_text, hv]
    simp only [hinit]
    exact fullTextLoop_err _ v hbad

/-- The example Note of the claim: value "Hello" with children
`1 CONT World` and `1 CONC !`. -/
def helloNote : Element :=
  .mk (some 0) "NOTE" (some "Hello") none
    [.mk (some 1) "CONT" (some "World") none [],
     .mk (some 1) "CONC" (some "!") none []]

/-- C6 witness: the claim's own example evaluates as stated. -/
theorem c6_note_full_text_witness :
    Note.full_text helloNote = .ok "Hello\nWorld!" := by
  have h := (c6_note_full_text helloNote "Hello" rfl).1 (by decide)
  exact h

/-- An element with two NAME children. -/
def dupTagEl : Element :=
  .mk (some 0) "INDI" none none
    [.mk (some 1) "NAME" (some "a") none [], .mk (some 1) "NAME" (some "b") none []]

/-- C2 counterexample: on an element with two NAME children, the tag
lookup `__getitem__` does not fail with an ambiguity error; it silently
returns the collection of both children.  This falsifies the claim that
the lookup "fails with an ambiguity error — rather than returning a
collection — when more than one child carries t". -/
theorem c2_lookup_counterexample :
    dupTagEl.getItem "NAME" =
      GetR.multiple [Element.mk (some 1) "NAME" (some "a") none [],
        Element.mk (some 1) "NAME" (some "b") none []] := rfl

/-- C2 (amended): `__getitem__` returns the unique child when exactly one
child carries the tag, fails with IndexError (the missing-tag error) when
none does, and silently returns the list of all matching children —
rather than failing — when more than one does. -/
theorem c2_single_lookup (e : Element) (t : String) :
    (e.get_list t = [] → e.getItem t = GetR.missing) ∧
    (∀ c, e.get_list t = [c] → e.getItem t = GetR.single c) ∧
    (∀ c d r, e.get_list t = c :: d :: r → e.getItem t = GetR.multiple (c :: d :: r)) := by
  refine ⟨fun h => ?_, fun c h => ?_, fun c d r h => ?_⟩ <;>
    · unfold Element.getItem
      unfold Element.get_list at h
      rw [h]

/-- An element with exactly one NAME child. -/
def singleTagEl : Element :=
  .mk (some 0) "INDI" none none [.mk (some 1) "NAME" (some "x") none []]

/-- C2 witness: the amended theorem applied to concrete elements. -/
theorem c2_single_lookup_witness :
    singleTagEl.getItem "NAME" = GetR.single (Element.mk (some 1) "NAME" (some "x") none []) ∧
    singleTagEl.getItem "SEX" = GetR.missing :=
  ⟨(c2_single_lookup singleTagEl "NAME").2.1 _ rfl,
   (c2_single_lookup singleTagEl "SEX").1 rfl⟩

/-- C8 (amended): `set_levels_downward` fails with TypeError exactly when
the root's own level is unset (not an integer); any integer root level —
including a negative one — is accepted, and on success every element of
the resulting subtree satisfies `level child = level parent + 1`,
recomputed depth first from the root's current level. -/
theorem c8_set_levels_downward (e : Element) :
    (e.level = none → Element.set_levels_downward e = .error .typeError) ∧
    (∀ n : Int, e.level = some n →
      Element.set_levels_downward e = .ok (setFrom n e) ∧
      levelsConsistent (setFrom n e) = true) := by
  constructor
  · intro h
    rw [Element.set_levels_downward, h]
  · intro n h
    constructor
    · rw [Element.set_levels_downward, h]
      cases e with
      | mk l t v i cs =>
        simp only [Element.level] at h
        subst h
        simp [setFrom, Element.tag, Element.value, Element.id, Element.child_elements]
    · exact levelsConsistent_setFrom n e

/-- A root element whose level is the negative integer -1. -/
def negRoot : Element :=
  .mk (some (-1)) "INDI" none none [.mk none "NAME" none none []]

/-- C8 counterexample: on a root whose level is the negative integer -1,
`set_levels_downward` does not fail with an invalid-level error (the claim
requires failure for every negative level); it succeeds, setting the
child's level to 0. -/
theorem c8_counterexample :
    Element.set_levels_downward negRoot =
      .ok (Element.mk (some (-1)) "INDI" none none
        [Element.mk (some 0) "NAME" none none []]) := rfl

/-- C8 witness: the amended theorem applied to a concrete two-level tree. -/
theorem c8_set_levels_downward_witness :
    Element.set_levels_downward (Element.mk (some 3) "INDI" none none
        [Element.mk none "NAME" none none []]) =
      .ok (Element.mk (some 3) "INDI" none none
        [Element.mk (some 4) "NAME" none none []]) ∧
    levelsConsistent (Element.mk (some 3) "INDI" none none
        [Element.mk (some 4) "NAME" none none []]) = true := by
  have h := (c8_set_levels_downward (Element.mk (some 3) "INDI" none none
    [Element.mk none "NAME" none none []])).2 3 rfl
  exact ⟨h.1, h.2⟩

/-- Specification-side predicate (from the spec's words): a NAME child
qualifies for `aka` when some TYPE child's value case-insensitively
equals "aka". -/
def akaQualifies (n : Element) : Bool :=
  n.tag == "NAME" && (n.get_list "TYPE").any (fun t => pyLower (pyValueOr t.value) == "aka")

/-- The test actually performed by the aka loop on one NAME child:
it has a TYPE child, that lookup yields a single element with a string
value, and the value lowercases to "aka". -/
def isAka (n : Element) : Bool :=
  n.containsTag "TYPE" &&
    (match n.getItem "TYPE" with
     | .single t =>
       match t.value with
       | some tv => pyLower tv == "aka"
       | none => false
     | _ => false)

/-- A NAME child on which the TYPE test of the aka loop cannot raise:
either no TYPE child, or a unique TYPE child with a string value. -/
def typeClean (n : Element) : Bool :=
  !n.containsTag "TYPE" ||
    (match n.getItem "TYPE" with
     | .single t => t.value.isSome
     | _ => false)

theorem akaLoop_clean (exf : Element → Option String × Option String) :
    ∀ (names : List Element) (acc : List (Option String × Option String)),
      (∀ n ∈ names, typeClean n = true) →
      (∀ n ∈ names, isAka n = true → extractNameParts n = .ok (exf n)) →
      akaLoop names acc = .ok (acc ++ (names.filter isAka).map exf) := by
  intro names
  induction names with
  | nil => intro acc _ _; simp [akaLoop]
  | cons n rest ih =>
    intro acc hclean hex
    have hcn := hclean n (List.mem_cons_self n rest)
    have hcr : ∀ m ∈ rest, typeClean m = true :=
      fun m hm => hclean m (List.mem_cons_of_mem n hm)
    have her : ∀ m ∈ rest, isAka m = true → extractNameParts m = .ok (exf m) :=
      fun m hm => hex m (List.mem_cons_of_mem n hm)
    by_cases hct : n.containsTag "TYPE"
    · rcases hgi : n.getItem "TYPE" with _ | t | ts
      · simp [typeClean, hct, hgi] at hcn
      · rcases htv : t.value with _ | tv
        · simp [typeClean, hct, hgi, htv, Option.isSome] at hcn
        · by_cases haka : pyLower tv = "aka"
          · have hq : isAka n = true := by
              simp [isAka, hct, hgi, htv, haka]
            have hexn := hex n (List.mem_cons_self n rest) hq
            rw [akaLoop, if_pos hct]
            simp only [hgi, htv, if_pos haka, hexn]
            rw [ih (acc ++ [exf n]) hcr her]
            simp [List.filter_cons, hq]
          · have hq : isAka n = false := by
              simp [isAka, hct, hgi, htv, haka]
            rw [akaLoop, if_pos hct]
            simp only [hgi, htv, if_neg haka]
            rw [ih acc hcr her]
            simp [List.filter_cons, hq]
      · simp [typeClean, hct, hgi] at hcn
    · have hq : isAka n = false := by
        simp [isAka, hct]
      rw [akaLoop, if_neg hct, ih acc hcr her]
      simp [List.filter_cons, hq]

/-- C7 (amended): `aka` raises IndexError when there is no NAME child;
with exactly one NAME child it always returns the empty list, even when
that single NAME qualifies as an aka name; only with two or more NAME
children does it return, in document order, the extracted names of those
whose unique TYPE child's value case-insensitively equals "aka". -/
theorem c7_aka (ind : Element) (exf : Element → Option String × Option String) :
    (ind.getItem "NAME" = GetR.missing → Individual.aka ind = .error .indexError) ∧
    (∀ nm, ind.getItem "NAME" = GetR.single nm → Individual.aka ind = .ok []) ∧
    (∀ names, ind.getItem "NAME" = GetR.multiple names →
      (∀ n ∈ names, typeClean n = true) →
      (∀ n ∈ names, isAka n = true → extractNameParts n = .ok (exf n)) →
      Individual.aka ind = .ok ((names.filter isAka).map exf)) := by
  refine ⟨fun h => ?_, fun nm h => ?_, fun names h hclean hex => ?_⟩
  · rw [Individual.aka]
    simp only [h]
  · rw [Individual.aka]
    simp only [h]
  · rw [Individual.aka]
    simp only [h]
    rw [akaLoop_clean exf names [] hclean hex]
    simp

/-- The single NAME child of the C7 counterexample: it qualifies as an
aka name (TYPE child with value "aka"). -/
def akaOnlyName : Element :=
  .mk (some 1) "NAME" (some "A /B/") none [.mk (some 2) "TYPE" (some "aka") none []]

/-- An Individual with exactly one NAME child, which is an aka name. -/
def akaSingleInd : Element := .mk (some 0) "INDI" none none [akaOnlyName]

/-- C7 counterexample: the claim requires `aka` on an Individual with
exactly one NAME child to return the extracted names of all qualifying
NAME children — here the one NAME child qualifies (TYPE value "aka") and
extracts to ("A", "B") — but the code returns the empty list, because the
single-NAME lookup result is not a list and the `isinstance` branch is
skipped. -/
theorem c7_aka_counterexample :
    Individual.aka akaSingleInd = .ok [] ∧
    akaQualifies akaOnlyName = true ∧
    extractNameParts akaOnlyName = .ok (some "A", some "B") :=
  ⟨rfl, rfl, rfl⟩

/-- A NAME child with no TYPE (not an aka name). -/
def plainName : Element := .mk (some 1) "NAME" (some "John /Smith/") none []

/-- An Individual with two NAME children, the second an aka name. -/
def akaDoubleInd : Element := .mk (some 0) "INDI" none none [plainName, akaOnlyName]

/-- C7 witness: the amended theorem applied to an Individual with two
NAME children. -/
theorem c7_aka_witness :
    Individual.aka akaDoubleInd = .ok [(some "A", some "B")] := by
  have h := (c7_aka akaDoubleInd (fun _ => (some "A", some "B"))).2.2
    [plainName, akaOnlyName] rfl (by decide)
    (by
      intro n hn ha
      rcases List.mem_cons.mp hn with rfl | hn'
      · exact absurd ha (by decide)
      · rcases List.mem_cons.mp hn' with rfl | hn''
        · rfl
        · exact absurd hn'' (List.not_mem_nil n))
  simpa using h

theorem filterMales_missing (ps : List Element)
    (hclean : ∀ p ∈ ps, p.getItem "SEX" = GetR.missing ∨
      ∃ c, p.getItem "SEX" = GetR.single c ∧ c.value.isSome = true)
    (hmiss : ∃ p ∈ ps, p.getItem "SEX" = GetR.missing) :
    filterMales ps = .error .indexError := by
  induction ps with
  | nil =>
    obtain ⟨p, hp, -⟩ := hmiss
    exact absurd hp (List.not_mem_nil p)
  | cons p rest ih =>
    rcases hclean p (List.mem_cons_self p rest) with hm | ⟨c, hc, hv⟩
    · rw [filterMales]
      simp only [Individual.is_male, Individual.sex, hm]
    · rcases hvs : c.value with _ | v
      · rw [hvs] at hv; simp [Option.isSome] at hv
      · have hrest : ∃ q ∈ rest, q.getItem "SEX" = GetR.missing := by
          obtain ⟨q, hq, hqm⟩ := hmiss
          rcases List.mem_cons.mp hq with rfl | hq'
          · rw [hqm] at hc; cases hc
          · exact ⟨q, hq', hqm⟩
        have hr := ih (fun q hq => hclean q (List.mem_cons_of_mem p hq)) hrest
        rw [filterMales]
        simp only [Individual.is_male, Individual.sex, hc, hvs, hr]

theorem filterFemales_missing (ps : List Element)
    (hclean : ∀ p ∈ ps, p.getItem "SEX" = GetR.missing ∨
      ∃ c, p.getItem "SEX" = GetR.single c ∧ c.value.isSome = true)
    (hmiss : ∃ p ∈ ps, p.getItem "SEX" = GetR.missing) :
    filterFemales ps = .error .indexError := by
  induction ps with
  | nil =>
    obtain ⟨p, hp, -⟩ := hmiss
    exact absurd hp (List.not_mem_nil p)
  | cons p rest ih =>
    rcases hclean p (List.mem_cons_self p rest) with hm | ⟨c, hc, hv⟩
    · rw [filterFemales]
      simp only [Individual.is_female, Individual.sex, hm]
    · rcases hvs : c.value with _ | v
      · rw [hvs] at hv; simp [Option.isSome] at hv
      · have hrest : ∃ q ∈ rest, q.getItem "SEX" = GetR.missing := by
          obtain ⟨q, hq, hqm⟩ := hmiss
          rcases List.mem_cons.mp hq with rfl | hq'
          · rw [hqm] at hc; cases hc
          · exact ⟨q, hq', hqm⟩
        have hr := ih (fun q hq => hclean q (List.mem_cons_of_mem p hq)) hrest
        rw [filterFemales]
        simp only [Individual.is_female, Individual.sex, hc, hvs, hr]

/-- C10: whenever the parents list is non-empty and some parent — even one
that would not match the requested sex — has no SEX child, both `father`
and `mother` evaluate `is_male`/`is_female` on every parent and fail with
IndexError (the lookup error of the SEX access) instead of returning a
parent or None.  The other parents are assumed to carry a well-formed
(unique, string-valued) SEX child, so the failure is exactly the missing
SEX lookup. -/
theorem c10_father_mother_sex (g : GedcomFile) (ind : Element) (ps : List Element)
    (hps : Individual.parents g ind = .ok ps)
    (hclean : ∀ p ∈ ps, p.getItem "SEX" = GetR.missing ∨
      ∃ c, p.getItem "SEX" = GetR.single c ∧ c.value.isSome = true)
    (hmiss : ∃ p ∈ ps, p.getItem "SEX" = GetR.missing) :
    Individual.father g ind = .error .indexError ∧
    Individual.mother g ind = .error .indexError := by
  constructor
  · have hm := filterMales_missing ps hclean hmiss
    rw [Individual.father]
    simp only [hps, hm]
  · have hm := filterFemales_missing ps hclean hmiss
    rw [Individual.mother]
    simp only [hps, hm]

/-- A father candidate with no SEX child. -/
def indNoSex : Element := .mk (some 0) "INDI" none (some "@I2@") []

/-- A mother candidate with a SEX child valued "F". -/
def indWithSex : Element :=
  .mk (some 0) "INDI" none (some "@I3@") [.mk (some 1) "SEX" (some "F") none []]

/-- A family with one HUSB and one WIFE pointer. -/
def famHW : Element :=
  .mk (some 0) "FAM" none (some "@F1@")
    [.mk (some 1) "HUSB" (some "@I2@") none [], .mk (some 1) "WIFE" (some "@I3@") none []]

/-- A child Individual pointing at the family via FAMC. -/
def childInd : Element :=
  .mk (some 0) "INDI" none (some "@I1@") [.mk (some 1) "FAMC" (some "@F1@") none []]

/-- The document containing the four records above. -/
def famFile : GedcomFile :=
  { root_elements := [childInd, indNoSex, indWithSex, famHW]
    pointers := [("@I1@", childInd), ("@I2@", indNoSex), ("@I3@", indWithSex), ("@F1@", famHW)]
    next_free_id := 1 }

/-- C10 witness: on the concrete document, the parents list is
[indNoSex, indWithSex]; indNoSex has no SEX child, so father and mother
both fail with IndexError. -/
theorem c10_father_mother_sex_witness :
    Individual.father famFile childInd = .error .indexError ∧
    Individual.mother famFile childInd = .error .indexError := by
  refine c10_father_mother_sex famFile childInd [indNoSex, indWithSex] rfl ?_ ?_
  · intro p hp
    rcases List.mem_cons.mp hp with rfl | hp'
    · exact Or.inl rfl
    · rcases List.mem_cons.mp hp' with rfl | hp''
      · exact Or.inr ⟨Element.mk (some 1) "SEX" (some "F") none [], rfl, rfl⟩
      · exact absurd hp'' (List.not_mem_nil p)
  · exact ⟨indNoSex, List.mem_cons_self _ _, rfl⟩

theorem allocateId_spec (ptrs : List (String × Element)) (pfx : String) :
    ∀ fuel nfi pid nfi', allocateId ptrs pfx fuel nfi = .ok (pid, nfi') →
      ∃ m, nfi ≤ m ∧ pid = mkPointerId pfx m ∧ nfi' = m + 1 ∧
        ptrs.any (fun p => p.1 == pid) = false := by
  intro fuel
  induction fuel with
  | zero => intro nfi pid nfi' h; cases h
  | succ fuel ih =>
    intro nfi pid nfi' h
    rw [allocateId] at h
    by_cases htaken : ptrs.any (fun p => p.1 == mkPointerId pfx nfi) = true
    · rw [if_pos htaken] at h
      obtain ⟨m, h1, h2, h3, h4⟩ := ih (nfi + 1) pid nfi' h
      exact ⟨m, Nat.le_of_succ_le h1, h2, h3, h4⟩
    · rw [if_neg htaken] at h
      injection h with h'
      injection h' with ha hb
      refine ⟨nfi, Nat.le_refl nfi, ha.symm, hb.symm, ?_⟩
      rw [← ha]
      exact Bool.eq_false_iff.mpr htaken

/-- C9: automatic id allocation in `add_element` (a) assigns an id of the
form `@I<n>@` (Individual) or `@F<n>@` (Family) that is not already
present in the pointer table, taking `n` at or above the current counter
and advancing the counter to `n + 1`; (b) the counter never decreases
across any sequence of add operations; (c) the integers assigned by two
consecutive automatic allocations are strictly ascending. -/
theorem c9_id_allocation :
    (∀ (g : GedcomFile) (e : Element) (g1 : GedcomFile) (e1 : Element),
      e.level = none → g.add_element e = .ok (g1, e1) →
      (e.tag = "INDI" ∨ e.tag = "FAM") ∧
      ∃ m, g.next_free_id ≤ m ∧ g1.next_free_id = m + 1 ∧
        e1.id = some (mkPointerId (if e.tag = "INDI" then "I" else "F") m) ∧
        g.pointers.any
          (fun p => p.1 == mkPointerId (if e.tag = "INDI" then "I" else "F") m) = false) ∧
    (∀ (g : GedcomFile) (es : List Element) (g' : GedcomFile),
      addAll g es = .ok g' → g.next_free_id ≤ g'.next_free_id) ∧
    (∀ (g : GedcomFile) (e f : Element) (g1 g2 : GedcomFile) (e1 f1 : Element),
      e.level = none → f.level = none →
      g.add_element e = .ok (g1, e1) → g1.add_element f = .ok (g2, f1) →
      ∃ m1 m2, m1 < m2 ∧
        e1.id = some (mkPointerId (if e.tag = "INDI" then "I" else "F") m1) ∧
        f1.id = some (mkPointerId (if f.tag = "INDI" then "I" else "F") m2)) := by
  have hstep : ∀ (g : GedcomFile) (e : Element) (g1 : GedcomFile) (e1 : Element),
      e.level = none → g.add_element e = .ok (g1, e1) →
      (e.tag = "INDI" ∨ e.tag = "FAM") ∧
      ∃ m, g.next_free_id ≤ m ∧ g1.next_free_id = m + 1 ∧
        e1.id = some (mkPointerId (if e.tag = "INDI" then "I" else "F") m) ∧
        g.pointers.any
          (fun p => p.1 == mkPointerId (if e.tag = "INDI" then "I" else "F") m) = false := by
    intro g e g1 e1 hl h
    simp only [GedcomFile.add_element, hl] at h
    by_cases htag : e.tag = "INDI" ∨ e.tag = "FAM"
    · rw [if_pos htag] at h
      rcases halloc : allocateId g.pointers (if e.tag = "INDI" then "I" else "F")
          999999 g.next_free_id with er | ⟨pid, nfi⟩
      · simp only [halloc] at h
        injection h
      · simp only [halloc] at h
        obtain ⟨m, h1, h2, h3, h4⟩ :=
          allocateId_spec g.pointers (if e.tag = "INDI" then "I" else "F")
            999999 g.next_free_id pid nfi halloc
        injection h with h'
        injection h' with hg he
        refine ⟨htag, m, h1, ?_, ?_, by rw [← h2]; exact h4⟩
        · rw [← hg]
          simp [GedcomFile.registerEl, h3]
        · rw [← he, ← h2]
          simp [Element.id]
    · rw [if_neg htag] at h
      cases h
  have hmono : ∀ (g : GedcomFile) (e : Element) (g1 : GedcomFile) (e1 : Element),
      g.add_element e = .ok (g1, e1) → g.next_free_id ≤ g1.next_free_id := by
    intro g e g1 e1 h
    rcases hl : e.level with _ | n
    · obtain ⟨-, m, h1, h2, -, -⟩ := hstep g e g1 e1 hl h
      omega
    · simp only [GedcomFile.add_element, hl] at h
      injection h with h'
      injection h' with hg he
      rw [← hg]
      simp [GedcomFile.registerEl]
  refine ⟨hstep, ?_, ?_⟩
  · intro g es
    induction es generalizing g with
    | nil =>
      intro g' h
      rw [addAll] at h
      injection h with h'
      rw [h']
    | cons e es ih =>
      intro g' h
      rw [addAll] at h
      rcases hadd : g.add_element e with er | ⟨g1, e1⟩
      · simp only [hadd] at h
        injection h
      · simp only [hadd] at h
        exact Nat.le_trans (hmono g e g1 e1 hadd) (ih g1 g' h)
  · intro g e f g1 g2 e1 f1 hle hlf h1 h2
    obtain ⟨-, m1, ha1, ha2, ha3, -⟩ := hstep g e g1 e1 hle h1
    obtain ⟨-, m2, hb1, hb2, hb3, -⟩ := hstep g1 f g2 f1 hlf h2
    exact ⟨m1, m2, by omega, ha3, hb3⟩

/-- A fresh Individual with unset level, to be auto-added. -/
def freshInd : Element := .mk none "INDI" none none []

/-- A document whose pointer table already contains the id "@I1@". -/
def takenFile : GedcomFile :=
  { root_elements := [indNoSex]
    pointers := [("@I1@", indNoSex)]
    next_free_id := 1 }

/-- C9 witness: adding a fresh Individual to a document where "@I1@" is
taken skips the taken candidate and assigns "@I2@", advancing the counter
to 3; the allocation facts follow from the claim theorem applied at this
input. -/
theorem c9_id_allocation_witness :
    ∃ (g1 : GedcomFile) (e1 : Element),
      takenFile.add_element freshInd = .ok (g1, e1) ∧
      e1.id = some "@I2@" ∧ g1.next_free_id = 3 ∧
      ∃ m, takenFile.next_free_id ≤ m ∧ g1.next_free_id = m + 1 ∧
        e1.id = some (mkPointerId "I" m) ∧
        takenFile.pointers.any (fun p => p.1 == mkPointerId "I" m) = false := by
  have hok : takenFile.add_element freshInd =
      .ok ({ root_elements := [indNoSex, Element.mk (some 0) "INDI" none (some "@I2@") []],
             pointers := [("@I2@", Element.mk (some 0) "INDI" none (some "@I2@") []),
               ("@I1@", indNoSex)],
             next_free_id := 3 },
           Element.mk (some 0) "INDI" none (some "@I2@") []) := rfl
  refine ⟨_, _, hok, rfl, rfl, ?_⟩
  obtain ⟨-, m, h1, h2, h3, h4⟩ := c9_id_allocation.1 takenFile freshInd _ _ rfl hok
  exact ⟨m, h1, h2, h3, h4⟩

/-- Decimal digit test (the `[0-9]` class of the line regex). -/
def isDigitC (c : Char) : Bool := '0' ≤ c && c ≤ '9'

/-- Tag characters (the `[_A-Z0-9]` class of the line regex). -/
def isTagChar (c : Char) : Bool := c = '_' || ('A' ≤ c && c ≤ 'Z') || ('0' ≤ c && c ≤ '9')

/-- Pointer body characters (the `[a-zA-Z0-9]` class of the line regex). -/
def isIdChar (c : Char) : Bool :=
  ('a' ≤ c && c ≤ 'z') || ('A' ≤ c && c ≤ 'Z') || ('0' ≤ c && c ≤ '9')

/-- The decimal digit character for a value below ten. -/
def digitChar : Nat → Char
  | 0 => '0'
  | 1 => '1'
  | 2 => '2'
  | 3 => '3'
  | 4 => '4'
  | 5 => '5'
  | 6 => '6'
  | 7 => '7'
  | 8 => '8'
  | 9 => '9'
  | _ => '*'

/-- Fuel-driven decimal printer (structural recursion on the fuel so
that it evaluates definitionally; `n + 1` units of fuel always suffice
since the argument shrinks by a factor of ten). -/
def natToDigitsAux : Nat → Nat → List Char → List Char
  | 0, _, acc => acc
  | fuel + 1, n, acc =>
    if n < 10 then digitChar n :: acc
    else natToDigitsAux fuel (n / 10) (digitChar (n % 10) :: acc)

/-- Model of Python `str(n)` for a non-negative int. -/
def natToDigits (n : Nat) : List Char := natToDigitsAux (n + 1) n []

/-- Model of `int()` on the digit group of the regex. -/
def natOfDigits (ds : List Char) : Nat :=
  ds.foldl (fun a c => 10 * a + (c.toNat - 48)) 0

/-- Model of Python `str()` on an int. -/
def intStr : Int → List Char
  | .ofNat k => natToDigits k
  | .negSucc k => '-' :: natToDigits (k + 1)

/-- The level part of a formatted line; `str(None)` is "None". -/
def levelCs : Option Int → List Char
  | none => ['N', 'o', 'n', 'e']
  | some n => intStr n

/-- Tag-and-value tail of the line regex: greedy `[_A-Z0-9]+`, then either
end of line (no value) or a single space and the verbatim remainder; `.`
does not match a newline, so a remainder containing one fails the match
(the input is stripped first, so a trailing newline cannot occur). -/
def parseTagVal (lvl : Nat) (oid : Option String) (r : List Char) :
    Option (Nat × Option String × String × Option String) :=
  let tagcs := r.takeWhile isTagChar
  if tagcs = [] then none
  else
    match r.dropWhile isTagChar with
    | [] => some (lvl, oid, String.mk tagcs, none)
    | ' ' :: vcs =>
      if vcs.contains '\n' then none
      else some (lvl, oid, String.mk tagcs, some (String.mk vcs))
    | _ => none

/-- Model of the line regex `line_format` (gedcom/__init__.py line 15)
`^([0-9]+) ((@[a-zA-Z0-9]+@) )?([_A-Z0-9]+)( (.*))?$` applied to a
stripped line: level, optional pointer id, tag, optional verbatim value.
When the optional id group cannot be completed, the regex backtracks to
the no-id alternative, where the tag would have to start at `@` — not a
tag character — so the whole match fails. -/
def parseLineCs (cs : List Char) : Option (Nat × Option String × String × Option String) :=
  let digits := cs.takeWhile isDigitC
  if digits = [] then none
  else
    match cs.dropWhile isDigitC with
    | ' ' :: rest1 =>
      (match rest1 with
       | c :: r2 =>
         if c = '@' then
           let body := r2.takeWhile isIdChar
           (match r2.dropWhile isIdChar with
            | '@' :: ' ' :: r3 =>
              if body = [] then none
              else
                parseTagVal (natOfDigits digits) (some (String.mk ('@' :: (body ++ ['@'])))) r3
            | _ => none)
         else parseTagVal (natOfDigits digits) none rest1
       | [] => parseTagVal (natOfDigits digits) none [])
    | _ => none

/-- The id part of a formatted line: a space and the id when it is truthy. -/
def idSeg : Option String → List Char
  | none => []
  | some i => if i.data = [] then [] else ' ' :: i.data

/-- The value part of a formatted line: a space and the value when it is
truthy. -/
def valSeg : Option String → List Char
  | none => []
  | some v => if v.data = [] then [] else ' ' :: v.data

/-- Model of the line built by `Element.gedcom_lines` (element.py line
137): `"{level}{id} {tag}{value}"`, the id contributing " " + id when
truthy and the value " " + value when truthy. -/
def formatLineCs (e : Element) : List Char :=
  levelCs e.level ++ idSeg e.id ++ ' ' :: e.tag.data ++ valSeg e.value

/-- The formatted line as a string. -/
def formatLine (e : Element) : String := String.mk (formatLineCs e)

mutual
/-- Model of `Element.gedcom_lines` (element.py lines 131-141): this
element's line followed by the children's lines, depth first pre-order. -/
def elementLines : Element → List String
  | .mk l t v i cs => formatLine (.mk l t v i cs) :: forestLines cs

def forestLines : List Element → List String
  | [] => []
  | c :: cs => elementLines c ++ forestLines cs
end

/-- The canonical header subtree synthesized by
`GedcomFile.ensure_header_trailer` (gedcom/__init__.py lines 154-169),
with the levels assigned by its `set_levels_downward()` call. -/
def headElement : Element :=
  .mk (some 0) "HEAD" (some "") none
    [ .mk (some 1) "SOUR" none none
        [ .mk (some 2) "NAME" (some "gedcompy") none [],
          .mk (some 2) "VERS" (some "0.1.0") none [] ],
      .mk (some 1) "CHAR" (some "UNICODE") none [],
      .mk (some 1) "GEDC" none none
        [ .mk (some 2) "VERS" (some "5.5") none [],
          .mk (some 2) "FORM" (some "LINEAGE-LINKED") none [] ] ]

/-- The trailer element appended by `ensure_header_trailer` (line 172). -/
def trlrElement : Element := .mk (some 0) "TRLR" (some "") none []

/-- Model of `GedcomFile.ensure_header_trailer` (lines 148-172): prepend
the canonical header when the first root is not HEAD, then append an
empty trailer when the last root is not TRLR. -/
def ensureHeaderTrailer (roots : List Element) : List Element :=
  let r1 :=
    match roots with
    | [] => headElement :: roots
    | e :: _ => if e.tag = "HEAD" then roots else headElement :: roots
  match r1.getLast? with
  | none => r1 ++ [trlrElement]
  | some e => if e.tag = "TRLR" then r1 else r1 ++ [trlrElement]

/-- Model of `GedcomFile.ensure_levels` (lines 174-183): set every root's
level to 0 and recompute levels downward. -/
def ensureLevels (roots : List Element) : List Element := setFromList 0 roots

/-- Model of `GedcomFile.gedcom_lines` (lines 107-118): ensure header and
trailer, re-level every root subtree, then emit each root's lines in
root order. -/
def gedcomLines (roots : List Element) : List String :=
  forestLines (ensureLevels (ensureHeaderTrailer roots))

/-- Modify the i-th entry of a list in place. -/
def listModify (f : α → α) : Nat → List α → List α
  | _, [] => []
  | 0, a :: as => f a :: as
  | n + 1, a :: as => a :: listModify f n as

/-- Index path to an element inside a forest: the head indexes the root
list, later entries index child lists.  Paths model the element
references held by the parser's dictionary and pointer table; they stay
valid because parsing only ever appends children. -/
abbrev TreePath := List Nat

/-- The element a (non-empty) path points at. -/
def getAtF : List Element → TreePath → Option Element
  | _, [] => none
  | es, i :: π =>
    match es[i]? with
    | none => none
    | some e =>
      match π with
      | [] => some e
      | _ => getAtF e.child_elements π

/-- Append a child at a path: the empty path appends a new root; a path
to an element appends a last child of that element (the effect of
`add_child_element` on the referenced parent). -/
def appendChildAt : List Element → TreePath → Element → List Element
  | es, [], c => es ++ [c]
  | es, i :: π, c =>
    listModify (fun e => e.withChildren (appendChildAt e.child_elements π c)) i es

/-- The `level_to_obj` dictionary of `__parse`: level → path of the
element most recently opened at that level. -/
abbrev LevelDict := List (Nat × TreePath)

/-- `level_to_obj[level] = element`. -/
def dictSet (d : LevelDict) (k : Nat) (v : TreePath) : LevelDict :=
  (k, v) :: d.filter (fun p => p.1 != k)

/-- Dictionary lookup. -/
def dictFind (d : LevelDict) (k : Nat) : Option TreePath :=
  (d.find? (fun p => p.1 == k)).map (fun p => p.2)

/-- `dict((l, obj) for l, obj in level_to_obj.items() if l < level)`
(gedcom/__init__.py line 389). -/
def dictBelow (d : LevelDict) (k : Nat) : LevelDict :=
  d.filter (fun p => decide (p.1 < k))

/-- `self.pointers[id] = element` with a path in place of the reference. -/
def ptrSetP (ps : List (String × TreePath)) (k : String) (v : TreePath) :
    List (String × TreePath) :=
  (k, v) :: ps.filter (fun p => p.1 != k)

/-- The pointer registration performed by `add_element` for a parsed
element (gedcom/__init__.py lines 82-83): `if element.id:` — only a
truthy id is registered. -/
def ptrUpd (ps : List (String × TreePath)) (oid : Option String) (π : TreePath) :
    List (String × TreePath) :=
  match oid with
  | some i => if i = "" then ps else ptrSetP ps i π
  | none => ps

/-- Parser state built by `__parse` (gedcom/__init__.py lines 371-403):
the root forest (`gedcom_file.root_elements`; the dictionary and pointer
paths point into it), the `level_to_obj` dictionary, and the file's
pointer table. -/
structure PState where
  forest : List Element
  dict : LevelDict
  pointers : List (String × TreePath)

/-- One iteration of the `__parse` loop (gedcom/__init__.py lines
376-401) on one input line: strip it, skip it when blank, match the line
regex (`NotImplementedError` on failure).  A level-0 element gets no
parent and is recorded at dictionary level 0 without any discarding;
otherwise the dictionary entries at levels ≥ level are discarded, the
entry at level−1 is the parent (`KeyError` — the orphan case — when
absent) and the element is appended as that parent's last child.  The
`add_element` call then registers a truthy id in the pointer table
(silently overwriting any previous binding) and appends level-0 elements
to the root list. -/
def parseStep (st : PState) (line : String) : Except PyErr PState :=
  let cs := pstripCs line.data
  if cs = [] then .ok st
  else
    match parseLineCs cs with
    | none => .error .notImplementedError
    | some (lvl, oid, tg, oval) =>
      let e : Element := .mk (some (lvl : Int)) tg oval oid []
      if lvl = 0 then
        let π : TreePath := [st.forest.length]
        .ok { forest := st.forest ++ [e],
              dict := dictSet st.dict 0 π,
              pointers := ptrUpd st.pointers oid π }
      else
        let d1 := dictBelow st.dict lvl
        match dictFind d1 (lvl - 1) with
        | none => .error .keyError
        | some πp =>
          match getAtF st.forest πp with
          | none => .error .keyError
          | some parentEl =>
            let π := πp ++ [parentEl.child_elements.length]
            .ok { forest := appendChildAt st.forest πp e,
                  dict := dictSet d1 lvl π,
                  pointers := ptrUpd st.pointers oid π }

/-- The `__parse` loop from a given state. -/
def parseAllFrom (st : PState) : List String → Except PyErr PState
  | [] => .ok st
  | l :: ls =>
    match parseStep st l with
    | .error er => .error er
    | .ok st1 => parseAllFrom st1 ls

/-- Model of `__parse` (gedcom/__init__.py lines 371-403) on a list of
input lines, starting from the empty document. -/
def parseAll (ls : List String) : Except PyErr PState :=
  parseAllFrom { forest := [], dict := [], pointers := [] } ls

/-- Value normalization performed by a serialize-then-parse round trip:
an empty-string value is omitted by the formatter (it is falsy) and
therefore comes back as `None`. -/
def valueNorm : Option String → Option String
  | none => none
  | some v => if v = "" then none else some v

mutual
/-- `valueNorm` applied to every value in a tree. -/
def valueNormTree : Element → Element
  | .mk l t v i cs => .mk l t (valueNorm v) i (valueNormForest cs)

def valueNormForest : List Element → List Element
  | [] => []
  | c :: cs => valueNormTree c :: valueNormForest cs
end

theorem takeWhile_all_append (p : Char → Bool) (l : List Char) (b : Char) (r : List Char)
    (hl : ∀ a ∈ l, p a = true) (hb : p b = false) :
    (l ++ b :: r).takeWhile p = l := by
  induction l with
  | nil => simp [List.takeWhile, hb]
  | cons a l' ih =>
    have ha := hl a (List.mem_cons_self a l')
    rw [List.cons_append, List.takeWhile_cons, ha]
    rw [ih (fun x hx => hl x (List.mem_cons_of_mem a hx))]
    rfl

theorem dropWhile_all_append (p : Char → Bool) (l : List Char) (b : Char) (r : List Char)
    (hl : ∀ a ∈ l, p a = true) (hb : p b = false) :
    (l ++ b :: r).dropWhile p = b :: r := by
  induction l with
  | nil => simp [List.dropWhile, hb]
  | cons a l' ih =>
    have ha := hl a (List.mem_cons_self a l')
    rw [List.cons_append, List.dropWhile_cons, ha]
    exact ih (fun x hx => hl x (List.mem_cons_of_mem a hx))

theorem takeWhile_all (p : Char → Bool) (l : List Char) (hl : ∀ a ∈ l, p a = true) :
    l.takeWhile p = l := by
  induction l with
  | nil => rfl
  | cons a l' ih =>
    have ha := hl a (List.mem_cons_self a l')
    rw [List.takeWhile_cons, ha]
    rw [ih (fun x hx => hl x (List.mem_cons_of_mem a hx))]
    rfl

theorem dropWhile_all (p : Char → Bool) (l : List Char) (hl : ∀ a ∈ l, p a = true) :
    l.dropWhile p = [] := by
  induction l with
  | nil => rfl
  | cons a l' ih =>
    have ha := hl a (List.mem_cons_self a l')
    rw [List.dropWhile_cons, ha]
    exact ih (fun x hx => hl x (List.mem_cons_of_mem a hx))

theorem isDigitC_digitChar (n : Nat) (h : n < 10) : isDigitC (digitChar n) = true := by
  interval_cases n <;> decide

theorem digitChar_toNat (n : Nat) (h : n < 10) : (digitChar n).toNat - 48 = n := by
  interval_cases n <;> decide

theorem isPyWS_digitChar (n : Nat) (h : n < 10) : isPyWS (digitChar n) = false := by
  interval_cases n <;> decide

theorem natToDigitsAux_acc (fuel : Nat) :
    ∀ (n : Nat) (acc : List Char),
      natToDigitsAux fuel n acc = natToDigitsAux fuel n [] ++ acc := by
  induction fuel with
  | zero => intro n acc; rfl
  | succ fuel ih =>
    intro n acc
    by_cases h : n < 10
    · simp [natToDigitsAux, h]
    · rw [natToDigitsAux, if_neg h, natToDigitsAux, if_neg h]
      rw [ih (n / 10) (digitChar (n % 10) :: acc), ih (n / 10) [digitChar (n % 10)]]
      simp

theorem natToDigitsAux_props :
    ∀ (fuel n : Nat), n < fuel →
      (∀ c ∈ natToDigitsAux fuel n [], isDigitC c = true) ∧
      natToDigitsAux fuel n [] ≠ [] ∧
      natOfDigits (natToDigitsAux fuel n []) = n := by
  intro fuel
  induction fuel with
  | zero => intro n h; omega
  | succ fuel ih =>
    intro n h
    by_cases h10 : n < 10
    · rw [natToDigitsAux, if_pos h10]
      refine ⟨?_, by simp, ?_⟩
      · intro c hc
        rcases List.mem_singleton.mp hc with rfl
        exact isDigitC_digitChar n h10
      · show natOfDigits [digitChar n] = n
        rw [natOfDigits]
        simp [List.foldl, digitChar_toNat n h10]
    · rw [natToDigitsAux, if_neg h10]
      rw [natToDigitsAux_acc fuel (n / 10) [digitChar (n % 10)]]
      have hdiv : n / 10 < fuel := by
        have h1 : n / 10 < n := Nat.div_lt_self (by omega) (by omega)
        omega
      obtain ⟨hall, hne, hval⟩ := ih (n / 10) hdiv
      refine ⟨?_, by simp [hne], ?_⟩
      · intro c hc
        rcases List.mem_append.mp hc with hc1 | hc2
        · exact hall c hc1
        · rcases List.mem_singleton.mp hc2 with rfl
          exact isDigitC_digitChar (n % 10) (Nat.mod_lt n (by omega))
      · rw [natOfDigits, List.foldl_append]
        rw [natOfDigits] at hval
        rw [hval]
        simp only [List.foldl]
        rw [digitChar_toNat (n % 10) (Nat.mod_lt n (by omega))]
        omega

theorem natToDigits_digits (n : Nat) : ∀ c ∈ natToDigits n, isDigitC c = true :=
  (natToDigitsAux_props (n + 1) n (by omega)).1

theorem natToDigits_ne_nil (n : Nat) : natToDigits n ≠ [] :=
  (natToDigitsAux_props (n + 1) n (by omega)).2.1

theorem natOfDigits_natToDigits (n : Nat) : natOfDigits (natToDigits n) = n :=
  (natToDigitsAux_props (n + 1) n (by omega)).2.2

theorem dropWhile_head_not (p : Char → Bool) (l : List Char)
    (h : ∀ c, l.head? = some c → p c = false) : l.dropWhile p = l := by
  cases l with
  | nil => rfl
  | cons a l' =>
    have := h a rfl
    simp [List.dropWhile, this]

theorem pstripCs_eq_self (l : List Char)
    (h1 : ∀ c, l.head? = some c → isPyWS c = false)
    (h2 : ∀ c, l.getLast? = some c → isPyWS c = false) : pstripCs l = l := by
  rw [pstripCs, dropWhile_head_not _ l h1, dropWhile_head_not, List.reverse_reverse]
  intro c hc
  rw [List.head?_reverse] at hc
  exact h2 c hc

theorem isDigitC_not_ws (c : Char) (h : isDigitC c = true) : isPyWS c = false := by
  rcases hws : isPyWS c with _ | _
  · rfl
  · exfalso
    rw [isPyWS] at hws
    simp only [Bool.or_eq_true, decide_eq_true_eq] at hws
    rcases hws with ((((h' | h') | h') | h') | h') | h' <;> subst h' <;>
      exact absurd h (by decide)

theorem isTagChar_not_ws (c : Char) (h : isTagChar c = true) : isPyWS c = false := by
  rcases hws : isPyWS c with _ | _
  · rfl
  · exfalso
    rw [isPyWS] at hws
    simp only [Bool.or_eq_true, decide_eq_true_eq] at hws
    rcases hws with ((((h' | h') | h') | h') | h') | h' <;> subst h' <;>
      exact absurd h (by decide)

theorem withChildren_child_elements (e : Element) (cs : List Element) :
    (e.withChildren cs).child_elements = cs := by
  cases e
  rfl

theorem withChildren_fields (e : Element) (cs : List Element) :
    (e.withChildren cs).level = e.level ∧ (e.withChildren cs).tag = e.tag ∧
    (e.withChildren cs).value = e.value ∧ (e.withChildren cs).id = e.id := by
  cases e
  exact ⟨rfl, rfl, rfl, rfl⟩

theorem withChildren_withChildren (e : Element) (cs ds : List Element) :
    (e.withChildren cs).withChildren ds = e.withChildren ds := by
  cases e
  rfl

theorem listModify_get (f : α → α) :
    ∀ (l : List α) (i j : Nat),
      (listModify f i l)[j]? = if i = j then (l[j]?).map f else l[j]? := by
  intro l
  induction l with
  | nil =>
    intro i j
    cases i <;> simp [listModify]
  | cons a l' ih =>
    intro i j
    cases i with
    | zero =>
      cases j with
      | zero => simp [listModify]
      | succ j' => simp [listModify]
    | succ i' =>
      cases j with
      | zero => simp [listModify, Nat.succ_ne_zero]
      | succ j' =>
        simp only [listModify, List.getElem?_cons_succ]
        rw [ih i' j']
        by_cases h : i' = j' <;> simp [h]

theorem listModify_append_length (f : α → α) (l : List α) (a : α) :
    listModify f l.length (l ++ [a]) = l ++ [f a] := by
  induction l with
  | nil => rfl
  | cons b l' ih => simp [listModify, ih]

theorem listModify_comp (f g : α → α) :
    ∀ (l : List α) (i : Nat),
      listModify f i (listModify g i l) = listModify (fun x => f (g x)) i l := by
  intro l
  induction l with
  | nil => intro i; cases i <;> rfl
  | cons a l' ih =>
    intro i
    cases i with
    | zero => rfl
    | succ i' => simp [listModify, ih]

theorem listModify_congr (f g : α → α) :
    ∀ (l : List α) (i : Nat) (a : α), l[i]? = some a → f a = g a →
      listModify f i l = listModify g i l := by
  intro l
  induction l with
  | nil => intro i a h; cases i <;> cases h
  | cons b l' ih =>
    intro i a h hfg
    cases i with
    | zero =>
      simp only [List.getElem?_cons_zero, Option.some.injEq] at h
      subst h
      simp [listModify, hfg]
    | succ i' =>
      simp only [List.getElem?_cons_succ] at h
      simp [listModify, ih i' a h hfg]

theorem get_append_length (l : List α) (a : α) : (l ++ [a])[l.length]? = some a := by
  induction l with
  | nil => rfl
  | cons b l' ih => simp [ih]

theorem get_append_lt (l l' : List α) (i : Nat) (h : i < l.length) :
    (l ++ l')[i]? = l[i]? := by
  rw [List.getElem?_append, if_pos h]

/-- The number of children at a location: the whole forest for the empty
path, the element's child count for a path to an element. -/
def childCount (es : List Element) : TreePath → Option Nat
  | [] => some es.length
  | π => (getAtF es π).map (fun e => e.child_elements.length)

/-- Appending a sequence of children at one location. -/
def appendAllAt (es : List Element) (π : TreePath) : List Element → List Element
  | [] => es
  | t :: ts => appendAllAt (appendChildAt es π t) π ts


theorem getAtF_cons_nil (es : List Element) (i : Nat) : getAtF es [i] = es[i]? := by
  rw [getAtF]
  rcases es[i]? with _ | e <;> rfl

theorem getAtF_cons_cons (es : List Element) (i j : Nat) (rest : List Nat) :
    getAtF es (i :: j :: rest) =
      match es[i]? with
      | none => none
      | some e => getAtF e.child_elements (j :: rest) := by
  rw [getAtF]

theorem appendChildAt_nil_eq (es : List Element) (c : Element) :
    appendChildAt es [] c = es ++ [c] := rfl

theorem appendChildAt_cons_eq (es : List Element) (i : Nat) (π : List Nat) (c : Element) :
    appendChildAt es (i :: π) c =
      listModify (fun e => e.withChildren (appendChildAt e.child_elements π c)) i es := rfl

theorem childCount_nil_eq (es : List Element) : childCount es [] = some es.length := rfl

theorem childCount_cons_eq (es : List Element) (i : Nat) (π : List Nat) :
    childCount es (i :: π) =
      (getAtF es (i :: π)).map (fun e => e.child_elements.length) := rfl

theorem getAtF_appendChildAt_self :
    ∀ (π : TreePath) (es : List Element) (E c : Element),
      getAtF es π = some E →
      getAtF (appendChildAt es π c) π = some (E.withChildren (E.child_elements ++ [c])) := by
  intro π
  induction π with
  | nil =>
    intro es E c h
    rw [getAtF] at h
    cases h
  | cons i π' ih =>
    intro es E c h
    rcases hi : es[i]? with _ | a
    · exfalso
      cases π' with
      | nil => rw [getAtF_cons_nil, hi] at h; cases h
      | cons j rest =>
        rw [getAtF_cons_cons, hi] at h
        exact Option.noConfusion h
    · cases π' with
      | nil =>
        rw [getAtF_cons_nil, hi] at h
        have haE : a = E := by injection h
        rw [appendChildAt_cons_eq, getAtF_cons_nil, listModify_get, if_pos rfl, hi]
        show some (a.withChildren (appendChildAt a.child_elements [] c)) =
          some (E.withChildren (E.child_elements ++ [c]))
        rw [appendChildAt_nil_eq, haE]
      | cons j rest =>
        rw [getAtF_cons_cons, hi] at h
        replace h : getAtF a.child_elements (j :: rest) = some E := h
        rw [appendChildAt_cons_eq, getAtF_cons_cons, listModify_get, if_pos rfl, hi]
        show getAtF ((a.withChildren (appendChildAt a.child_elements (j :: rest) c)).child_elements)
            (j :: rest) = some (E.withChildren (E.child_elements ++ [c]))
        rw [withChildren_child_elements]
        exact ih a.child_elements E c h

theorem getAtF_appendChildAt_new :
    ∀ (π : TreePath) (es : List Element) (k : Nat) (c : Element),
      childCount es π = some k →
      getAtF (appendChildAt es π c) (π ++ [k]) = some c := by
  intro π
  induction π with
  | nil =>
    intro es k c h
    rw [childCount_nil_eq] at h
    obtain rfl : es.length = k := by injection h
    rw [List.nil_append, appendChildAt_nil_eq, getAtF_cons_nil, get_append_length]
  | cons i π' ih =>
    intro es k c h
    rw [childCount_cons_eq] at h
    rcases hE : getAtF es (i :: π') with _ | E
    · rw [hE] at h
      exact Option.noConfusion h
    · rw [hE] at h
      replace h : E.child_elements.length = k := by
        replace h : some (E.child_elements.length) = some k := h
        injection h
      rcases hi : es[i]? with _ | a
      · exfalso
        cases π' with
        | nil => rw [getAtF_cons_nil, hi] at hE; cases hE
        | cons j rest =>
          rw [getAtF_cons_cons, hi] at hE
          exact Option.noConfusion hE
      · cases π' with
        | nil =>
          rw [getAtF_cons_nil, hi] at hE
          have haE : a = E := by injection hE
          simp only [List.cons_append, List.nil_append]
          rw [appendChildAt_cons_eq, getAtF_cons_cons, listModify_get, if_pos rfl, hi]
          show getAtF ((a.withChildren (appendChildAt a.child_elements [] c)).child_elements)
              [k] = some c
          rw [withChildren_child_elements, appendChildAt_nil_eq, getAtF_cons_nil, haE, ← h,
            get_append_length]
        | cons j rest =>
          rw [getAtF_cons_cons, hi] at hE
          replace hE : getAtF a.child_elements (j :: rest) = some E := hE
          have hcc : childCount a.child_elements (j :: rest) = some k := by
            rw [childCount_cons_eq, hE, ← h]
            rfl
          simp only [List.cons_append]
          rw [appendChildAt_cons_eq, getAtF_cons_cons, listModify_get, if_pos rfl, hi]
          show getAtF
              ((a.withChildren (appendChildAt a.child_elements (j :: rest) c)).child_elements)
              (j :: (rest ++ [k])) = some c
          rw [withChildren_child_elements]
          have := ih a.child_elements k c hcc
          simp only [List.cons_append] at this
          exact this

theorem appendChildAt_factor :
    ∀ (π : TreePath) (es : List Element) (k : Nat) (c d : Element),
      childCount es π = some k →
      appendChildAt (appendChildAt es π c) (π ++ [k]) d =
        appendChildAt es π (c.withChildren (c.child_elements ++ [d])) := by
  intro π
  induction π with
  | nil =>
    intro es k c d h
    rw [childCount_nil_eq] at h
    obtain rfl : es.length = k := by injection h
    rw [List.nil_append, appendChildAt_nil_eq, appendChildAt_cons_eq, appendChildAt_nil_eq]
    have : (fun (e : Element) => e.withChildren (appendChildAt e.child_elements [] d)) =
        fun (e : Element) => e.withChildren (e.child_elements ++ [d]) := by
      funext e
      rw [appendChildAt_nil_eq]
    rw [this, listModify_append_length]
  | cons i π' ih =>
    intro es k c d h
    rw [childCount_cons_eq] at h
    rcases hE : getAtF es (i :: π') with _ | E
    · rw [hE] at h
      exact Option.noConfusion h
    · rw [hE] at h
      replace h : E.child_elements.length = k := by
        replace h : some (E.child_elements.length) = some k := h
        injection h
      rcases hi : es[i]? with _ | a
      · exfalso
        cases π' with
        | nil => rw [getAtF_cons_nil, hi] at hE; cases hE
        | cons j rest =>
          rw [getAtF_cons_cons, hi] at hE
          exact Option.noConfusion hE
      · have hcc : childCount a.child_elements π' = some k := by
          cases π' with
          | nil =>
            rw [getAtF_cons_nil, hi] at hE
            obtain rfl : a = E := by injection hE
            rw [childCount_nil_eq, h]
          | cons j rest =>
            rw [getAtF_cons_cons, hi] at hE
            replace hE : getAtF a.child_elements (j :: rest) = some E := hE
            rw [childCount_cons_eq, hE, ← h]
            rfl
        rw [List.cons_append, appendChildAt_cons_eq, appendChildAt_cons_eq,
          appendChildAt_cons_eq, listModify_comp]
        apply listModify_congr _ _ es i a hi
        show (a.withChildren (appendChildAt a.child_elements π' c)).withChildren
            (appendChildAt
              (a.withChildren (appendChildAt a.child_elements π' c)).child_elements
              (π' ++ [k]) d) =
          a.withChildren (appendChildAt a.child_elements π'
            (c.withChildren (c.child_elements ++ [d])))
        rw [withChildren_withChildren, withChildren_child_elements, ih _ k c d hcc]

theorem appendAllAt_factor :
    ∀ (ts : List Element) (es : List Element) (π : TreePath) (k : Nat) (c : Element),
      childCount es π = some k →
      appendAllAt (appendChildAt es π c) (π ++ [k]) ts =
        appendChildAt es π (c.withChildren (c.child_elements ++ ts)) := by
  intro ts
  induction ts with
  | nil =>
    intro es π k c h
    rw [appendAllAt, List.append_nil, Element.withChildren_self]
  | cons t ts' ih =>
    intro es π k c h
    rw [appendAllAt, appendChildAt_factor π es k c t h,
      ih es π k (c.withChildren (c.child_elements ++ [t])) h,
      withChildren_withChildren, withChildren_child_elements, List.append_assoc,
      List.singleton_append]

theorem getAtF_appendChildAt_other :
    ∀ (π : TreePath) (es : List Element) (ρ : TreePath) (c E : Element),
      getAtF es π = some E →
      ∃ E', getAtF (appendChildAt es ρ c) π = some E' ∧
        E'.level = E.level ∧ E'.tag = E.tag ∧ E'.value = E.value ∧ E'.id = E.id := by
  intro π
  induction π with
  | nil =>
    intro es ρ c E h
    rw [getAtF] at h
    cases h
  | cons i π' ih =>
    intro es ρ c E h
    rcases hi : es[i]? with _ | a
    · exfalso
      cases π' with
      | nil => rw [getAtF_cons_nil, hi] at h; cases h
      | cons j rest =>
        rw [getAtF_cons_cons, hi] at h
        exact Option.noConfusion h
    · have hlt : i < es.length := by
        by_contra hge
        rw [List.getElem?_eq_none (by omega)] at hi
        cases hi
      cases ρ with
      | nil =>
        refine ⟨E, ?_, rfl, rfl, rfl, rfl⟩
        rw [appendChildAt_nil_eq]
        cases π' with
        | nil => rw [getAtF_cons_nil, get_append_lt es [c] i hlt, ← getAtF_cons_nil es i, h]
        | cons j rest =>
          rw [getAtF_cons_cons, get_append_lt es [c] i hlt, hi]
          rw [getAtF_cons_cons, hi] at h
          exact h
      | cons m ρ' =>
        by_cases him : m = i
        · subst him
          cases π' with
          | nil =>
            rw [getAtF_cons_nil, hi] at h
            have haE : a = E := by injection h
            refine ⟨a.withChildren (appendChildAt a.child_elements ρ' c), ?_, ?_, ?_, ?_, ?_⟩
            · rw [appendChildAt_cons_eq, getAtF_cons_nil, listModify_get, if_pos rfl, hi]
              rfl
            · rw [(withChildren_fields a _).1, haE]
            · rw [(withChildren_fields a _).2.1, haE]
            · rw [(withChildren_fields a _).2.2.1, haE]
            · rw [(withChildren_fields a _).2.2.2, haE]
          | cons j rest =>
            rw [getAtF_cons_cons, hi] at h
            replace h : getAtF a.child_elements (j :: rest) = some E := h
            obtain ⟨E', hE', hf⟩ := ih a.child_elements ρ' c E h
            refine ⟨E', ?_, hf⟩
            rw [appendChildAt_cons_eq, getAtF_cons_cons, listModify_get, if_pos rfl, hi]
            show getAtF ((a.withChildren (appendChildAt a.child_elements ρ' c)).child_elements)
                (j :: rest) = some E'
            rw [withChildren_child_elements]
            exact hE'
        · refine ⟨E, ?_, rfl, rfl, rfl, rfl⟩
          cases π' with
          | nil =>
            rw [appendChildAt_cons_eq, getAtF_cons_nil, listModify_get, if_neg him, hi]
            rw [getAtF_cons_nil, hi] at h
            exact h
          | cons j rest =>
            rw [appendChildAt_cons_eq, getAtF_cons_cons, listModify_get, if_neg him, hi]
            rw [getAtF_cons_cons, hi] at h
            exact h

theorem filter_lt_filter_ne (d : LevelDict) (k m : Nat) (hmk : m ≤ k) :
    (d.filter (fun p => p.1 != k)).filter (fun p => decide (p.1 < m)) =
      d.filter (fun p => decide (p.1 < m)) := by
  induction d with
  | nil => rfl
  | cons p d' ih =>
    by_cases h1 : p.1 < m
    · have hne : p.1 ≠ k := by omega
      simp [List.filter_cons, h1, hne, ih]
    · by_cases h2 : p.1 = k
      · have hkm : ¬ (k < m) := by omega
        simp [List.filter_cons, h1, h2, ih, hkm]
      · simp [List.filter_cons, h1, h2, ih]

theorem dictBelow_dictSet_ge (d : LevelDict) (k : Nat) (v : TreePath) (m : Nat)
    (h : m ≤ k) : dictBelow (dictSet d k v) m = dictBelow d m := by
  rw [dictSet, dictBelow, dictBelow, List.filter_cons]
  have hlt : ¬ (k < m) := by omega
  simp only [hlt, decide_eq_true_eq, if_false, decide_False]
  exact filter_lt_filter_ne d k m h

theorem dictBelow_dictBelow (d : LevelDict) (m n : Nat) (h : m ≤ n) :
    dictBelow (dictBelow d n) m = dictBelow d m := by
  rw [dictBelow, dictBelow, dictBelow]
  induction d with
  | nil => rfl
  | cons p d' ih =>
    by_cases h1 : p.1 < m
    · have h2 : p.1 < n := by omega
      simp [List.filter_cons, h1, h2, ih]
    · by_cases h2 : p.1 < n
      · simp [List.filter_cons, h1, h2, ih]
      · simp [List.filter_cons, h1, h2, ih]

theorem dictFind_dictBelow_dictSet (d : LevelDict) (k : Nat) (v : TreePath) :
    dictFind (dictBelow (dictSet d k v) (k + 1)) k = some v := by
  rw [dictSet, dictBelow, List.filter_cons]
  have hlt : k < k + 1 := by omega
  simp [hlt, dictFind, List.find?]

/-- A tag fit for serialisation: nonempty, all tag characters. -/
def tagOK (t : String) : Bool := !t.data.isEmpty && t.data.all isTagChar

/-- After the opening `@` of a pointer token: id characters then a final
`@`. -/
def idTailOK : List Char → Bool
  | [] => false
  | [c] => c = '@'
  | c :: r => isIdChar c && idTailOK r

/-- The part after the opening `@`: at least one id character, then the
closing `@`. -/
def idBodyOK : List Char → Bool
  | [] => false
  | [_] => false
  | c :: r => isIdChar c && idTailOK r

/-- An id fit for serialisation: absent, or a full pointer token
`@[a-zA-Z0-9]+@`. -/
def idOKb : Option String → Bool
  | none => true
  | some i =>
    match i.data with
    | c :: rest => c = '@' && idBodyOK rest
    | [] => false

/-- A value fit for serialisation so that parsing the formatted line
recovers `valueNorm` of it: absent or empty (both omitted when
formatting), or with no newline and no trailing Python whitespace. -/
def valueSerialOK : Option String → Bool
  | none => true
  | some v =>
    v.data.isEmpty ||
      (!v.data.contains '\n' &&
        (match v.data.getLast? with
         | some c => !isPyWS c
         | none => true))

/-- A value fit for an exact round trip: absent, or nonempty with no
newline and no trailing Python whitespace. -/
def valueWf : Option String → Bool
  | none => true
  | some v =>
    !v.data.isEmpty &&
      (!v.data.contains '\n' &&
        (match v.data.getLast? with
         | some c => !isPyWS c
         | none => true))

mutual
/-- Every element of the tree has a serialisable tag, id and value. -/
def serialOKT : Element → Bool
  | .mk _ t v i cs => tagOK t && idOKb i && valueSerialOK v && serialOKF cs

def serialOKF : List Element → Bool
  | [] => true
  | c :: cs => serialOKT c && serialOKF cs
end

mutual
/-- Well-formed document: serialisable and with no empty-string values,
so that a serialise-then-parse round trip reproduces values exactly. -/
def wfT : Element → Bool
  | .mk _ t v i cs => tagOK t && idOKb i && valueWf v && wfF cs

def wfF : List Element → Bool
  | [] => true
  | c :: cs => wfT c && wfF cs
end

mutual
/-- Levels are correctly set: this element at `n`, children at `n + 1`. -/
def levelsFromB (n : Nat) : Element → Bool
  | .mk l _ _ _ cs => (l == some (n : Int)) && levelsFromF (n + 1) cs

def levelsFromF (n : Nat) : List Element → Bool
  | [] => true
  | c :: cs => levelsFromB n c && levelsFromF n cs
end

theorem valueWf_serial (v : Option String) (h : valueWf v = true) :
    valueSerialOK v = true := by
  rcases v with _ | s
  · rfl
  · rw [valueWf] at h
    rw [valueSerialOK]
    simp only [Bool.and_eq_true] at h
    obtain ⟨h1, h2, h3⟩ := h
    simp only [Bool.not_eq_true'] at h2
    simp at h2
    simp [h3]
    right
    exact h2

mutual
theorem wfT_serial (e : Element) (h : wfT e = true) : serialOKT e = true := by
  cases e with
  | mk l t v i cs =>
    rw [wfT] at h
    rw [serialOKT]
    simp only [Bool.and_eq_true] at h
    obtain ⟨⟨⟨h1, h2⟩, h3⟩, h4⟩ := h
    simp [h1, h2, valueWf_serial v h3, wfF_serial cs h4]

theorem wfF_serial (cs : List Element) (h : wfF cs = true) : serialOKF cs = true := by
  cases cs with
  | nil => rfl
  | cons c cs' =>
    rw [wfF] at h
    rw [serialOKF]
    simp only [Bool.and_eq_true] at h
    simp [wfT_serial c h.1, wfF_serial cs' h.2]
end

mutual
theorem serialOKT_setFrom (n : Int) (e : Element) (h : serialOKT e = true) :
    serialOKT (setFrom n e) = true := by
  cases e with
  | mk l t v i cs =>
    rw [serialOKT] at h
    rw [setFrom, serialOKT]
    simp only [Bool.and_eq_true] at h
    obtain ⟨⟨⟨h1, h2⟩, h3⟩, h4⟩ := h
    simp [h1, h2, h3, serialOKF_setFromList (n + 1) cs h4]

theorem serialOKF_setFromList (n : Int) (cs : List Element) (h : serialOKF cs = true) :
    serialOKF (setFromList n cs) = true := by
  cases cs with
  | nil => rfl
  | cons c cs' =>
    rw [serialOKF] at h
    rw [setFromList, serialOKF]
    simp only [Bool.and_eq_true] at h
    simp [serialOKT_setFrom n c h.1, serialOKF_setFromList n cs' h.2]
end

mutual
theorem levelsFromB_setFrom (n : Nat) (e : Element) :
    levelsFromB n (setFrom (n : Int) e) = true := by
  cases e with
  | mk l t v i cs =>
    rw [setFrom, levelsFromB]
    have h2 := levelsFromF_setFromList (n + 1) cs
    rw [show ((n + 1 : Nat) : Int) = (n : Int) + 1 by push_cast; ring] at h2
    simp [h2]

theorem levelsFromF_setFromList (n : Nat) (cs : List Element) :
    levelsFromF n (setFromList (n : Int) cs) = true := by
  cases cs with
  | nil => rfl
  | cons c cs' =>
    rw [setFromList, levelsFromF]
    simp [levelsFromB_setFrom n c, levelsFromF_setFromList n cs']
end

theorem idTailOK_structure :
    ∀ (l : List Char), idTailOK l = true →
      ∃ body, l = body ++ ['@'] ∧ (∀ c ∈ body, isIdChar c = true) := by
  intro l
  induction l with
  | nil => intro h; cases h
  | cons c r ih =>
    intro h
    rcases r with _ | ⟨c2, r2⟩
    · rw [idTailOK] at h
      have : c = '@' := by simpa using h
      subst this
      exact ⟨[], rfl, by intro x hx; cases hx⟩
    · replace h : (isIdChar c && idTailOK (c2 :: r2)) = true := h
      simp only [Bool.and_eq_true] at h
      obtain ⟨body, hb, hall⟩ := ih h.2
      refine ⟨c :: body, by rw [List.cons_append, hb], ?_⟩
      intro x hx
      rcases List.mem_cons.mp hx with rfl | hx'
      · exact h.1
      · exact hall x hx'

theorem idBodyOK_structure (l : List Char) (h : idBodyOK l = true) :
    ∃ body, l = body ++ ['@'] ∧ body ≠ [] ∧ (∀ c ∈ body, isIdChar c = true) := by
  rcases l with _ | ⟨c, r⟩
  · cases h
  · rcases r with _ | ⟨c2, r2⟩
    · cases h
    · replace h : (isIdChar c && idTailOK (c2 :: r2)) = true := h
      simp only [Bool.and_eq_true] at h
      obtain ⟨body, hb, hall⟩ := idTailOK_structure (c2 :: r2) h.2
      refine ⟨c :: body, by rw [List.cons_append, hb], by simp, ?_⟩
      intro x hx
      rcases List.mem_cons.mp hx with rfl | hx'
      · exact h.1
      · exact hall x hx'

theorem string_eq_empty_of_data (v : String) (h : v.data = []) : v = "" := by
  cases v
  simp_all

theorem parseTagVal_format (lvl : Nat) (oid : Option String) (t : String) (v : Option String)
    (ht : tagOK t = true) (hv : valueSerialOK v = true) :
    parseTagVal lvl oid (t.data ++ valSeg v) = some (lvl, oid, t, valueNorm v) := by
  rw [tagOK, Bool.and_eq_true] at ht
  obtain ⟨ht1, ht2⟩ := ht
  have htne : t.data ≠ [] := by
    intro hc
    rw [hc] at ht1
    cases ht1
  have htall : ∀ c ∈ t.data, isTagChar c = true := by
    intro c hc
    exact List.all_eq_true.mp ht2 c hc
  have hempty : ∀ (w : Option String), valSeg w = [] →
      parseTagVal lvl oid (t.data ++ []) = some (lvl, oid, t, none) := by
    intro w _
    rw [List.append_nil, parseTagVal]
    rw [takeWhile_all isTagChar t.data htall, dropWhile_all isTagChar t.data htall]
    simp only [htne, if_neg (by exact htne)]
    rfl
  rcases v with _ | s
  · exact hempty none rfl
  · rcases hsd : s.data with _ | ⟨c0, r0⟩
    · have hs : s = "" := string_eq_empty_of_data s hsd
      subst hs
      rw [show valSeg (some "") = [] from rfl]
      have := hempty (some "") rfl
      rw [this]
      rfl
    · have hvs : valSeg (some s) = ' ' :: s.data := by
        rw [valSeg, if_neg (by rw [hsd]; simp)]
      rw [hvs, parseTagVal]
      rw [takeWhile_all_append isTagChar t.data ' ' s.data htall (by decide),
        dropWhile_all_append isTagChar t.data ' ' s.data htall (by decide)]
      simp only [htne, if_neg (by exact htne)]
      have hnc : s.data.contains '\n' = false := by
        rw [valueSerialOK] at hv
        simp only [Bool.or_eq_true, Bool.and_eq_true] at hv
        rcases hv with h1 | ⟨h2, h3⟩
        · rw [List.isEmpty_iff] at h1
          rw [h1] at hsd
          cases hsd
        · rw [Bool.not_eq_true'] at h2
          exact h2
      rw [hnc]
      have hsne : s ≠ "" := by
        intro hc
        rw [hc] at hsd
        cases hsd
      show some (lvl, oid, String.mk t.data, some (String.mk s.data)) =
        some (lvl, oid, t, valueNorm (some s))
      rw [valueNorm, if_neg hsne]

theorem mem_of_getLast?_some : ∀ (l : List Char) (a : Char), l.getLast? = some a → a ∈ l := by
  intro l
  induction l with
  | nil => intro a h; cases h
  | cons c r ih =>
    intro a h
    rcases r with _ | ⟨c2, r2⟩
    · rw [List.getLast?_singleton] at h
      rw [Option.some.injEq] at h
      subst h
      exact List.mem_singleton_self _
    · rw [List.getLast?_cons_cons] at h
      exact List.mem_cons_of_mem c (ih a h)

theorem isTagChar_ne_at (c : Char) (h : isTagChar c = true) : c ≠ '@' := by
  intro hc
  subst hc
  exact absurd h (by decide)

theorem parseLineCs_format_noid (n : Nat) (t : String) (v : Option String)
    (ht : tagOK t = true) (hv : valueSerialOK v = true) :
    parseLineCs (natToDigits n ++ ' ' :: (t.data ++ valSeg v)) =
      some (n, none, t, valueNorm v) := by
  obtain ⟨ht1, ht2⟩ := (Bool.and_eq_true ..).mp ht
  have htne : t.data ≠ [] := by
    intro hc
    rw [hc] at ht1
    cases ht1
  rcases hT : t.data with _ | ⟨tc, tr⟩
  · exact absurd hT htne
  · have htc : isTagChar tc = true := by
      have hall := List.all_eq_true.mp ht2
      exact hall tc (by rw [hT]; exact List.mem_cons_self tc tr)
    have hdall := natToDigits_digits n
    have htake := takeWhile_all_append isDigitC (natToDigits n) ' '
      (tc :: tr ++ valSeg v) hdall (by decide)
    have hdrop := dropWhile_all_append isDigitC (natToDigits n) ' '
      (tc :: tr ++ valSeg v) hdall (by decide)
    simp only [parseLineCs, htake, hdrop, if_neg (natToDigits_ne_nil n)]
    simp only [List.cons_append, if_neg (isTagChar_ne_at tc htc), natOfDigits_natToDigits n]
    have hptv := parseTagVal_format n none t v ht hv
    rw [hT] at hptv
    simp only [List.cons_append] at hptv
    exact hptv

theorem parseLineCs_format_id (n : Nat) (body : List Char) (t : String) (v : Option String)
    (hb : body ≠ []) (hball : ∀ c ∈ body, isIdChar c = true)
    (ht : tagOK t = true) (hv : valueSerialOK v = true) :
    parseLineCs (natToDigits n ++
        ' ' :: ('@' :: (body ++ '@' :: ' ' :: (t.data ++ valSeg v)))) =
      some (n, some (String.mk ('@' :: (body ++ ['@']))), t, valueNorm v) := by
  have hdall := natToDigits_digits n
  have htake := takeWhile_all_append isDigitC (natToDigits n) ' '
    ('@' :: (body ++ '@' :: ' ' :: (t.data ++ valSeg v))) hdall (by decide)
  have hdrop := dropWhile_all_append isDigitC (natToDigits n) ' '
    ('@' :: (body ++ '@' :: ' ' :: (t.data ++ valSeg v))) hdall (by decide)
  have hbtake := takeWhile_all_append isIdChar body '@' (' ' :: (t.data ++ valSeg v))
    hball (by decide)
  have hbdrop := dropWhile_all_append isIdChar body '@' (' ' :: (t.data ++ valSeg v))
    hball (by decide)
  simp only [parseLineCs, htake, hdrop, if_neg (natToDigits_ne_nil n)]
  simp only [if_pos rfl, hbtake, hbdrop, if_neg hb, natOfDigits_natToDigits n]
  exact parseTagVal_format n (some (String.mk ('@' :: (body ++ ['@'])))) t v ht hv

theorem getLast?_append_cons_char (X : List Char) (c : Char) (l : List Char) :
    (X ++ c :: l).getLast? = (c :: l).getLast? :=
  List.getLast?_append_of_ne_nil X (by simp)

theorem getLast?_cons_ne (c : Char) (l : List Char) (h : l ≠ []) :
    (c :: l).getLast? = l.getLast? := by
  show ([c] ++ l).getLast? = l.getLast?
  exact List.getLast?_append_of_ne_nil [c] h

theorem getLast?_not_ws_of_tagval (t : String) (v : Option String)
    (ht : tagOK t = true) (hv : valueSerialOK v = true) :
    ∀ c, (t.data ++ valSeg v).getLast? = some c → isPyWS c = false := by
  obtain ⟨ht1, ht2⟩ := (Bool.and_eq_true ..).mp ht
  have htne : t.data ≠ [] := by
    intro hcon
    rw [hcon] at ht1
    cases ht1
  have htag : ∀ c, t.data.getLast? = some c → isPyWS c = false := by
    intro c hc
    exact isTagChar_not_ws c
      (List.all_eq_true.mp ht2 c (mem_of_getLast?_some t.data c hc))
  intro c hc
  rcases v with _ | s
  · rw [show valSeg none = [] from rfl, List.append_nil] at hc
    exact htag c hc
  · rcases hsd : s.data with _ | ⟨v0, vr⟩
    · rw [valSeg, if_pos hsd, List.append_nil] at hc
      exact htag c hc
    · rw [valSeg, if_neg (by rw [hsd]; simp)] at hc
      rw [getLast?_append_cons_char, getLast?_cons_ne ' ' s.data (by rw [hsd]; simp)] at hc
      replace hv : (s.data.isEmpty ||
          (!s.data.contains '\n' &&
            (match s.data.getLast? with
             | some c => !isPyWS c
             | none => true))) = true := hv
      rcases (Bool.or_eq_true ..).mp hv with h1 | h2
      · rw [List.isEmpty_iff] at h1
        rw [h1] at hsd
        cases hsd
      · obtain ⟨-, h3⟩ := (Bool.and_eq_true ..).mp h2
        rw [hc] at h3
        replace h3 : (!isPyWS c) = true := h3
        rw [Bool.not_eq_true'] at h3
        exact h3

theorem pstrip_digit_head (n : Nat) (X : List Char)
    (hlast : ∀ c, (natToDigits n ++ X).getLast? = some c → isPyWS c = false) :
    pstripCs (natToDigits n ++ X) = natToDigits n ++ X := by
  apply pstripCs_eq_self
  · intro c hc
    rcases hD : natToDigits n with _ | ⟨d0, ds⟩
    · exact absurd hD (natToDigits_ne_nil n)
    rw [hD, List.cons_append, List.head?_cons] at hc
    injection hc with h
    subst h
    exact isDigitC_not_ws _
      (natToDigits_digits n _ (by rw [hD]; exact List.mem_cons_self _ ds))
  · exact hlast

theorem reparse_line (e : Element) (n : Nat)
    (hl : e.level = some (n : Int))
    (ht : tagOK e.tag = true) (hi : idOKb e.id = true) (hv : valueSerialOK e.value = true) :
    pstripCs (formatLineCs e) = formatLineCs e ∧
    parseLineCs (formatLineCs e) = some (n, e.id, e.tag, valueNorm e.value) := by
  have hTVne : e.tag.data ++ valSeg e.value ≠ [] := by
    obtain ⟨ht1, -⟩ := (Bool.and_eq_true ..).mp ht
    intro hcon
    rcases List.append_eq_nil.mp hcon with ⟨h1, -⟩
    rw [h1] at ht1
    cases ht1
  rcases hid : e.id with _ | i
  · have hshape : formatLineCs e =
        natToDigits n ++ ' ' :: (e.tag.data ++ valSeg e.value) := by
      rw [formatLineCs, hl, hid]
      rw [show levelCs (some (n : Int)) = natToDigits n from rfl,
        show idSeg none = [] from rfl]
      simp [List.append_assoc]
    constructor
    · rw [hshape]
      apply pstrip_digit_head
      intro c hc
      rw [getLast?_append_cons_char, getLast?_cons_ne ' ' _ hTVne] at hc
      exact getLast?_not_ws_of_tagval e.tag e.value ht hv c hc
    · rw [hshape]
      exact parseLineCs_format_noid n e.tag e.value ht hv
  · rw [hid] at hi
    replace hi : (match i.data with
        | c :: rest => decide (c = '@') && idBodyOK rest
        | [] => false) = true := hi
    rcases hID : i.data with _ | ⟨c0, rest⟩
    · rw [hID] at hi
      cases hi
    · rw [hID] at hi
      replace hi : (decide (c0 = '@') && idBodyOK rest) = true := hi
      obtain ⟨hc0, hbody⟩ := (Bool.and_eq_true ..).mp hi
      replace hc0 : c0 = '@' := by simpa using hc0
      subst hc0
      obtain ⟨body, hb, hbne, hball⟩ := idBodyOK_structure rest hbody
      subst hb
      have hshape : formatLineCs e =
          natToDigits n ++
            ' ' :: ('@' :: (body ++ '@' :: ' ' :: (e.tag.data ++ valSeg e.value))) := by
        rw [formatLineCs, hl, hid]
        rw [show levelCs (some (n : Int)) = natToDigits n from rfl]
        rw [idSeg, if_neg (by rw [hID]; simp), hID]
        simp [List.append_assoc]
      constructor
      · rw [hshape]
        apply pstrip_digit_head
        intro c hc
        rw [getLast?_append_cons_char, getLast?_cons_ne ' ' _ (by simp)] at hc
        rw [getLast?_cons_ne '@' _ (by simp), getLast?_append_cons_char] at hc
        rw [getLast?_cons_ne '@' _ (by simp), getLast?_cons_ne ' ' _ hTVne] at hc
        exact getLast?_not_ws_of_tagval e.tag e.value ht hv c hc
      · rw [hshape]
        have hres := parseLineCs_format_id n body e.tag e.value hbne hball ht hv
        rw [hres]
        have hmk : String.mk ('@' :: (body ++ ['@'])) = i := by
          have hieta : i = String.mk i.data := rfl
          rw [hieta, hID]
        rw [hmk]

theorem formatLineCs_ne_nil (e : Element) (n : Nat) (hl : e.level = some (n : Int)) :
    formatLineCs e ≠ [] := by
  rw [formatLineCs, hl, show levelCs (some (n : Int)) = natToDigits n from rfl]
  intro h
  rcases List.append_eq_nil.mp h with ⟨h1, -⟩
  rcases List.append_eq_nil.mp h1 with ⟨h2, -⟩
  rcases List.append_eq_nil.mp h2 with ⟨h3, -⟩
  exact natToDigits_ne_nil n h3

theorem parseStep_zero (st : PState) (line : String) (oid : Option String)
    (tg : String) (ov : Option String)
    (hstrip : pstripCs line.data ≠ [])
    (hparse : parseLineCs (pstripCs line.data) = some (0, oid, tg, ov)) :
    parseStep st line = .ok
      { forest := st.forest ++ [Element.mk (some ((0 : Nat) : Int)) tg ov oid []],
        dict := dictSet st.dict 0 [st.forest.length],
        pointers := ptrUpd st.pointers oid [st.forest.length] } := by
  simp only [parseStep]
  rw [if_neg hstrip]
  simp only [hparse]
  rfl

theorem parseStep_sub (st : PState) (line : String) (n : Nat) (oid : Option String)
    (tg : String) (ov : Option String) (ρ : TreePath) (E : Element)
    (hstrip : pstripCs line.data ≠ [])
    (hparse : parseLineCs (pstripCs line.data) = some (n, oid, tg, ov))
    (hn : 1 ≤ n)
    (hdf : dictFind (dictBelow st.dict n) (n - 1) = some ρ)
    (hget : getAtF st.forest ρ = some E) :
    parseStep st line = .ok
      { forest := appendChildAt st.forest ρ (Element.mk (some (n : Int)) tg ov oid []),
        dict := dictSet (dictBelow st.dict n) n (ρ ++ [E.child_elements.length]),
        pointers := ptrUpd st.pointers oid (ρ ++ [E.child_elements.length]) } := by
  simp only [parseStep]
  rw [if_neg hstrip]
  simp only [hparse]
  rw [if_neg (show ¬ n = 0 by omega)]
  simp only [hdf, hget]

theorem parseStep_orphan (st : PState) (line : String) (n : Nat) (oid : Option String)
    (tg : String) (ov : Option String)
    (hstrip : pstripCs line.data ≠ [])
    (hparse : parseLineCs (pstripCs line.data) = some (n, oid, tg, ov))
    (hn : 1 ≤ n)
    (hdf : dictFind (dictBelow st.dict n) (n - 1) = none) :
    parseStep st line = .error .keyError := by
  simp only [parseStep]
  rw [if_neg hstrip]
  simp only [hparse]
  rw [if_neg (show ¬ n = 0 by omega)]
  simp only [hdf]

theorem parseAllFrom_append (l1 : List String) :
    ∀ (l2 : List String) (st : PState),
      parseAllFrom st (l1 ++ l2) =
        match parseAllFrom st l1 with
        | .error er => .error er
        | .ok st1 => parseAllFrom st1 l2 := by
  induction l1 with
  | nil => intro l2 st; rfl
  | cons l ls ih =>
    intro l2 st
    rw [List.cons_append, parseAllFrom, parseAllFrom]
    rcases hps : parseStep st l with er | st1
    · rfl
    · exact ih l2 st1

mutual
theorem parseSim_el (e : Element) : ∀ (n : Nat) (st : PState) (ρ : TreePath) (E : Element),
    serialOKT e = true → levelsFromB n e = true → 1 ≤ n →
    dictFind (dictBelow st.dict n) (n - 1) = some ρ →
    getAtF st.forest ρ = some E →
    ∃ st' : PState,
      parseAllFrom st (elementLines e) = .ok st' ∧
      st'.forest = appendChildAt st.forest ρ (valueNormTree e) ∧
      ∀ m, m ≤ n → dictBelow st'.dict m = dictBelow st.dict m := by
  cases e with
  | mk l t v i cs =>
    intro n st ρ E hs hlv hn hdf hget
    replace hs : (tagOK t && idOKb i && valueSerialOK v && serialOKF cs) = true := hs
    simp only [Bool.and_eq_true] at hs
    obtain ⟨⟨⟨hst, hsi⟩, hsv⟩, hscs⟩ := hs
    replace hlv : ((l == some (n : Int)) && levelsFromF (n + 1) cs) = true := hlv
    simp only [Bool.and_eq_true] at hlv
    obtain ⟨hleq, hlf⟩ := hlv
    have hl : l = some (n : Int) := by simpa using hleq
    have hrep := reparse_line (Element.mk l t v i cs) n hl hst hsi hsv
    have hstrip0 : pstripCs (formatLine (Element.mk l t v i cs)).data ≠ [] := by
      rw [show (formatLine (Element.mk l t v i cs)).data
          = formatLineCs (Element.mk l t v i cs) from rfl, hrep.1]
      exact formatLineCs_ne_nil (Element.mk l t v i cs) n hl
    have hparse0 : parseLineCs (pstripCs (formatLine (Element.mk l t v i cs)).data)
        = some (n, i, t, valueNorm v) := by
      rw [show (formatLine (Element.mk l t v i cs)).data
          = formatLineCs (Element.mk l t v i cs) from rfl, hrep.1]
      exact hrep.2
    have hcc : childCount st.forest ρ = some E.child_elements.length := by
      cases ρ with
      | nil => rw [getAtF] at hget; cases hget
      | cons r0 ρ' => rw [childCount_cons_eq, hget]; rfl
    have hstep := parseStep_sub st (formatLine (Element.mk l t v i cs)) n i t
      (valueNorm v) ρ E hstrip0 hparse0 hn hdf hget
    have hdf1 : dictFind (dictBelow
        (dictSet (dictBelow st.dict n) n (ρ ++ [E.child_elements.length])) (n + 1)) n =
        some (ρ ++ [E.child_elements.length]) :=
      dictFind_dictBelow_dictSet (dictBelow st.dict n) n (ρ ++ [E.child_elements.length])
    have hget1 : getAtF
        (appendChildAt st.forest ρ (Element.mk (some (n : Int)) t (valueNorm v) i []))
        (ρ ++ [E.child_elements.length]) =
        some (Element.mk (some (n : Int)) t (valueNorm v) i []) :=
      getAtF_appendChildAt_new ρ st.forest E.child_elements.length _ hcc
    obtain ⟨st2, hrun2, hforest2, hdict2⟩ :=
      parseSim_forest cs (n + 1)
        { forest := appendChildAt st.forest ρ (Element.mk (some (n : Int)) t (valueNorm v) i []),
          dict := dictSet (dictBelow st.dict n) n (ρ ++ [E.child_elements.length]),
          pointers := ptrUpd st.pointers i (ρ ++ [E.child_elements.length]) }
        (ρ ++ [E.child_elements.length])
        (Element.mk (some (n : Int)) t (valueNorm v) i [])
        hscs hlf (by omega) hdf1 hget1
    refine ⟨st2, ?_, ?_, ?_⟩
    · rw [elementLines, parseAllFrom, hstep]
      exact hrun2
    · rw [hforest2]
      show appendAllAt
          (appendChildAt st.forest ρ (Element.mk (some (n : Int)) t (valueNorm v) i []))
          (ρ ++ [E.child_elements.length]) (valueNormForest cs) =
        appendChildAt st.forest ρ (valueNormTree (Element.mk l t v i cs))
      rw [appendAllAt_factor (valueNormForest cs) st.forest ρ E.child_elements.length _ hcc]
      rw [hl]
      rfl
    · intro m hm
      rw [hdict2 m (by omega)]
      show dictBelow (dictSet (dictBelow st.dict n) n (ρ ++ [E.child_elements.length])) m =
        dictBelow st.dict m
      rw [dictBelow_dictSet_ge (dictBelow st.dict n) n (ρ ++ [E.child_elements.length]) m hm,
        dictBelow_dictBelow st.dict m n hm]

theorem parseSim_forest (cs : List Element) :
    ∀ (n : Nat) (st : PState) (π : TreePath) (E : Element),
      serialOKF cs = true → levelsFromF n cs = true → 1 ≤ n →
      dictFind (dictBelow st.dict n) (n - 1) = some π →
      getAtF st.forest π = some E →
      ∃ st' : PState,
        parseAllFrom st (forestLines cs) = .ok st' ∧
        st'.forest = appendAllAt st.forest π (valueNormForest cs) ∧
        ∀ m, m ≤ n → dictBelow st'.dict m = dictBelow st.dict m := by
  cases cs with
  | nil =>
    intro n st π E hs hlf hn hdf hget
    exact ⟨st, rfl, rfl, fun m _ => rfl⟩
  | cons c cs' =>
    intro n st π E hs hlf hn hdf hget
    replace hs : (serialOKT c && serialOKF cs') = true := hs
    simp only [Bool.and_eq_true] at hs
    replace hlf : (levelsFromB n c && levelsFromF n cs') = true := hlf
    simp only [Bool.and_eq_true] at hlf
    obtain ⟨st1, hrun1, hforest1, hdict1⟩ := parseSim_el c n st π E hs.1 hlf.1 hn hdf hget
    have hdf1 : dictFind (dictBelow st1.dict n) (n - 1) = some π := by
      rw [hdict1 n (Nat.le_refl n)]
      exact hdf
    have hget1 : getAtF st1.forest π =
        some (E.withChildren (E.child_elements ++ [valueNormTree c])) := by
      rw [hforest1]
      exact getAtF_appendChildAt_self π st.forest E (valueNormTree c) hget
    obtain ⟨st2, hrun2, hforest2, hdict2⟩ :=
      parseSim_forest cs' n st1 π (E.withChildren (E.child_elements ++ [valueNormTree c]))
        hs.2 hlf.2 hn hdf1 hget1
    refine ⟨st2, ?_, ?_, ?_⟩
    · rw [forestLines, parseAllFrom_append (elementLines c) (forestLines cs') st, hrun1]
      exact hrun2
    · rw [hforest2, hforest1]
      rfl
    · intro m hm
      rw [hdict2 m hm, hdict1 m hm]
end

theorem parseSim_root (e : Element) (st : PState)
    (hs : serialOKT e = true) (hlv : levelsFromB 0 e = true) :
    ∃ st' : PState,
      parseAllFrom st (elementLines e) = .ok st' ∧
      st'.forest = st.forest ++ [valueNormTree e] := by
  cases e with
  | mk l t v i cs =>
    replace hs : (tagOK t && idOKb i && valueSerialOK v && serialOKF cs) = true := hs
    simp only [Bool.and_eq_true] at hs
    obtain ⟨⟨⟨hst, hsi⟩, hsv⟩, hscs⟩ := hs
    replace hlv : ((l == some ((0 : Nat) : Int)) && levelsFromF 1 cs) = true := hlv
    simp only [Bool.and_eq_true] at hlv
    obtain ⟨hleq, hlf⟩ := hlv
    have hl : l = some ((0 : Nat) : Int) := by simpa using hleq
    have hrep := reparse_line (Element.mk l t v i cs) 0 hl hst hsi hsv
    have hstrip0 : pstripCs (formatLine (Element.mk l t v i cs)).data ≠ [] := by
      rw [show (formatLine (Element.mk l t v i cs)).data
          = formatLineCs (Element.mk l t v i cs) from rfl, hrep.1]
      exact formatLineCs_ne_nil (Element.mk l t v i cs) 0 hl
    have hparse0 : parseLineCs (pstripCs (formatLine (Element.mk l t v i cs)).data)
        = some (0, i, t, valueNorm v) := by
      rw [show (formatLine (Element.mk l t v i cs)).data
          = formatLineCs (Element.mk l t v i cs) from rfl, hrep.1]
      exact hrep.2
    have hstep := parseStep_zero st (formatLine (Element.mk l t v i cs)) i t
      (valueNorm v) hstrip0 hparse0
    have hcc : childCount st.forest [] = some st.forest.length := childCount_nil_eq st.forest
    have hdf1 : dictFind (dictBelow
        (dictSet st.dict 0 [st.forest.length]) (0 + 1)) 0 = some [st.forest.length] :=
      dictFind_dictBelow_dictSet st.dict 0 [st.forest.length]
    have hget1 : getAtF (st.forest ++ [Element.mk (some ((0 : Nat) : Int)) t (valueNorm v) i []])
        [st.forest.length] = some (Element.mk (some ((0 : Nat) : Int)) t (valueNorm v) i []) := by
      have := getAtF_appendChildAt_new [] st.forest st.forest.length
        (Element.mk (some ((0 : Nat) : Int)) t (valueNorm v) i []) hcc
      rw [appendChildAt_nil_eq] at this
      exact this
    obtain ⟨st2, hrun2, hforest2, hdict2⟩ :=
      parseSim_forest cs 1
        { forest := st.forest ++ [Element.mk (some ((0 : Nat) : Int)) t (valueNorm v) i []],
          dict := dictSet st.dict 0 [st.forest.length],
          pointers := ptrUpd st.pointers i [st.forest.length] }
        [st.forest.length]
        (Element.mk (some ((0 : Nat) : Int)) t (valueNorm v) i [])
        hscs hlf (Nat.le_refl 1) hdf1 hget1
    refine ⟨st2, ?_, ?_⟩
    · rw [elementLines, parseAllFrom, hstep]
      exact hrun2
    · rw [hforest2]
      show appendAllAt
          (appendChildAt st.forest [] (Element.mk (some ((0 : Nat) : Int)) t (valueNorm v) i []))
          ([] ++ [st.forest.length]) (valueNormForest cs) =
        st.forest ++ [valueNormTree (Element.mk l t v i cs)]
      rw [appendAllAt_factor (valueNormForest cs) st.forest [] st.forest.length _ hcc]
      rw [appendChildAt_nil_eq, hl]
      rfl

theorem parseSim_roots (rs : List Element) :
    ∀ st : PState, serialOKF rs = true → levelsFromF 0 rs = true →
      ∃ st' : PState, parseAllFrom st (forestLines rs) = .ok st' ∧
        st'.forest = st.forest ++ valueNormForest rs := by
  induction rs with
  | nil =>
    intro st _ _
    exact ⟨st, rfl, by rw [show valueNormForest [] = [] from rfl, List.append_nil]⟩
  | cons r rs' ih =>
    intro st hs hlv
    replace hs : (serialOKT r && serialOKF rs') = true := hs
    simp only [Bool.and_eq_true] at hs
    replace hlv : (levelsFromB 0 r && levelsFromF 0 rs') = true := hlv
    simp only [Bool.and_eq_true] at hlv
    obtain ⟨st1, hrun1, hforest1⟩ := parseSim_root r st hs.1 hlv.1
    obtain ⟨st2, hrun2, hforest2⟩ := ih st1 hs.2 hlv.2
    refine ⟨st2, ?_, ?_⟩
    · rw [forestLines, parseAllFrom_append (elementLines r) (forestLines rs') st, hrun1]
      exact hrun2
    · rw [hforest2, hforest1]
      rw [show valueNormForest (r :: rs') = valueNormTree r :: valueNormForest rs' from rfl]
      rw [List.append_assoc, List.singleton_append]

theorem serialOKF_append (l1 l2 : List Element) (h1 : serialOKF l1 = true)
    (h2 : serialOKF l2 = true) : serialOKF (l1 ++ l2) = true := by
  induction l1 with
  | nil => exact h2
  | cons c cs ih =>
    replace h1 : (serialOKT c && serialOKF cs) = true := h1
    simp only [Bool.and_eq_true] at h1
    rw [List.cons_append]
    show (serialOKT c && serialOKF (cs ++ l2)) = true
    rw [h1.1, ih h1.2]
    rfl

theorem serialOKF_ensureHT (roots : List Element) (h : serialOKF roots = true) :
    serialOKF (ensureHeaderTrailer roots) = true := by
  have hhead : serialOKT headElement = true := by decide
  have htrlr1 : serialOKF [trlrElement] = true := by decide
  have step2 : ∀ (r1 : List Element), serialOKF r1 = true →
      serialOKF (match r1.getLast? with
        | none => r1 ++ [trlrElement]
        | some e => if e.tag = "TRLR" then r1 else r1 ++ [trlrElement]) = true := by
    intro r1 hr1
    rcases hl : r1.getLast? with _ | le
    · exact serialOKF_append r1 [trlrElement] hr1 htrlr1
    · show serialOKF (if le.tag = "TRLR" then r1 else r1 ++ [trlrElement]) = true
      by_cases hlt : le.tag = "TRLR"
      · rw [if_pos hlt]
        exact hr1
      · rw [if_neg hlt]
        exact serialOKF_append r1 [trlrElement] hr1 htrlr1
  have step1 : ∀ (rr : List Element), serialOKF rr = true →
      serialOKF (match rr with
        | [] => headElement :: rr
        | e :: _ => if e.tag = "HEAD" then rr else headElement :: rr) = true := by
    intro rr hrr
    rcases rr with _ | ⟨r, rs⟩
    · show (serialOKT headElement && serialOKF ([] : List Element)) = true
      rw [hhead]
      rfl
    · show serialOKF (if r.tag = "HEAD" then r :: rs else headElement :: r :: rs) = true
      by_cases hh : r.tag = "HEAD"
      · rw [if_pos hh]
        exact hrr
      · rw [if_neg hh]
        show (serialOKT headElement && serialOKF (r :: rs)) = true
        rw [hhead, hrr]
        rfl
  exact step2 _ (step1 roots h)

/-- C1: round trip.  For every well-formed document (each element has a
nonempty all-uppercase-or-digit-or-underscore tag, an absent or
syntactically valid pointer id, and an absent or nonempty value with no
newline and no trailing whitespace), parsing the line sequence produced
by serialization succeeds and yields exactly the serialized tree: the
header/trailer-normalized, re-levelled document, with values taken
through `valueNorm` (an empty-string value is formatted as absent and
parses back as `None`; well-formed user values are unchanged).  Tags,
values, ids, nesting structure and the order of roots and children are
all preserved. -/
theorem c1_round_trip (roots : List Element) (hwf : wfF roots = true) :
    ∃ st : PState, parseAll (gedcomLines roots) = .ok st ∧
      st.forest = valueNormForest (ensureLevels (ensureHeaderTrailer roots)) := by
  have hserialHT : serialOKF (ensureHeaderTrailer roots) = true :=
    serialOKF_ensureHT roots (wfF_serial roots hwf)
  have hserial : serialOKF (ensureLevels (ensureHeaderTrailer roots)) = true :=
    serialOKF_setFromList 0 (ensureHeaderTrailer roots) hserialHT
  have hlv : levelsFromF 0 (ensureLevels (ensureHeaderTrailer roots)) = true :=
    levelsFromF_setFromList 0 (ensureHeaderTrailer roots)
  obtain ⟨st, h1, h2⟩ := parseSim_roots (ensureLevels (ensureHeaderTrailer roots))
    { forest := [], dict := [], pointers := [] } hserial hlv
  refine ⟨st, h1, ?_⟩
  rw [h2]
  rfl

/-- A small well-formed document: one Individual with a NAME child. -/
def rtDoc : List Element :=
  [Element.mk none "INDI" (some "x") (some "@I1@")
    [Element.mk none "NAME" (some "a /b/") none []]]

/-- C1 witness: the round-trip theorem applied to the concrete document
`rtDoc`. -/
theorem c1_round_trip_witness :
    ∃ st : PState, parseAll (gedcomLines rtDoc) = .ok st ∧
      st.forest = valueNormForest (ensureLevels (ensureHeaderTrailer rtDoc)) :=
  c1_round_trip rtDoc (by decide)

/-- C3: parent resolution of `__parse`.  For any state and any
non-blank line that matches the line regex at level `n`: a level-0 line
is appended to the end of the root sequence (earlier roots untouched, so
roots keep input order) and gets no parent; at level `n ≥ 1` the parent
is the entry at key `n − 1` of the `level_to_obj` dictionary after
discarding every entry at a level `≥ n`, a missing entry raises
`KeyError` (the orphan case), and on success the new element is appended
as the parent's LAST child, all previous children kept in place — so
siblings keep strict input order — and the dictionary records the new
element as the most recently opened element at level `n`. -/
theorem c3_parent_resolution (st : PState) (line : String) (n : Nat)
    (oid : Option String) (tg : String) (ov : Option String)
    (hstrip : pstripCs line.data ≠ [])
    (hparse : parseLineCs (pstripCs line.data) = some (n, oid, tg, ov)) :
    (n = 0 →
      parseStep st line = .ok
        { forest := st.forest ++ [Element.mk (some (n : Int)) tg ov oid []],
          dict := dictSet st.dict 0 [st.forest.length],
          pointers := ptrUpd st.pointers oid [st.forest.length] }) ∧
    (1 ≤ n → dictFind (dictBelow st.dict n) (n - 1) = none →
      parseStep st line = .error .keyError) ∧
    (∀ (ρ : TreePath) (E : Element), 1 ≤ n →
      dictFind (dictBelow st.dict n) (n - 1) = some ρ →
      getAtF st.forest ρ = some E →
      ∃ st1, parseStep st line = .ok st1 ∧
        getAtF st1.forest ρ =
          some (E.withChildren (E.child_elements ++
            [Element.mk (some (n : Int)) tg ov oid []])) ∧
        st1.dict = dictSet (dictBelow st.dict n) n (ρ ++ [E.child_elements.length])) := by
  refine ⟨?_, ?_, ?_⟩
  · intro h0
    subst h0
    exact parseStep_zero st line oid tg ov hstrip hparse
  · intro h1 hdf
    exact parseStep_orphan st line n oid tg ov hstrip hparse h1 hdf
  · intro ρ E h1 hdf hget
    refine ⟨_, parseStep_sub st line n oid tg ov ρ E hstrip hparse h1 hdf hget, ?_, rfl⟩
    exact getAtF_appendChildAt_self ρ st.forest E
      (Element.mk (some (n : Int)) tg ov oid []) hget

/-- C3 witness: in a state holding one root `@I1@ INDI` open at level 0,
the line `1 NAME John` is attached as that root's last (here first)
child and becomes the open element at level 1. -/
theorem c3_parent_resolution_witness :
    ∃ st1, parseStep
        { forest := [Element.mk (some 0) "INDI" none (some "@I1@") []],
          dict := [(0, [0])],
          pointers := [("@I1@", [0])] } "1 NAME John" = .ok st1 ∧
      getAtF st1.forest [0] =
        some ((Element.mk (some 0) "INDI" none (some "@I1@") []).withChildren
          ((Element.mk (some 0) "INDI" none (some "@I1@") []).child_elements ++
            [Element.mk (some ((1 : Nat) : Int)) "NAME" (some "John") none []])) ∧
      st1.dict = dictSet (dictBelow [(0, [0])] 1) 1
        ([0] ++ [(Element.mk (some 0) "INDI" none (some "@I1@") []).child_elements.length]) :=
  (c3_parent_resolution
      { forest := [Element.mk (some 0) "INDI" none (some "@I1@") []],
        dict := [(0, [0])],
        pointers := [("@I1@", [0])] } "1 NAME John" 1 none "NAME" (some "John")
      (by decide) (by rfl)).2.2
    [0] (Element.mk (some 0) "INDI" none (some "@I1@") []) (by decide) (by rfl) (by rfl)

theorem mem_ptrUpd (ps : List (String × TreePath)) (oid : Option String)
    (π : TreePath) (k : String) (πk : TreePath)
    (h : (k, πk) ∈ ptrUpd ps oid π) :
    (k, πk) ∈ ps ∨ (oid = some k ∧ πk = π) := by
  rcases oid with _ | i
  · exact Or.inl h
  · simp only [ptrUpd] at h
    by_cases hi : i = ""
    · rw [if_pos hi] at h
      exact Or.inl h
    · rw [if_neg hi] at h
      rw [ptrSetP] at h
      rcases List.mem_cons.mp h with h1 | h2
      · injection h1 with ha hb
        exact Or.inr ⟨by rw [ha], hb⟩
      · exact Or.inl (List.mem_filter.mp h2).1

theorem parseStep_pointers (st st' : PState) (line : String)
    (h : parseStep st line = .ok st')
    (hc : ∀ (k : String) (πk : TreePath), (k, πk) ∈ st.pointers →
      ∃ e, getAtF st.forest πk = some e ∧ e.id = some k) :
    ∀ (k : String) (πk : TreePath), (k, πk) ∈ st'.pointers →
      ∃ e, getAtF st'.forest πk = some e ∧ e.id = some k := by
  by_cases hstrip : pstripCs line.data = []
  · have hok : parseStep st line = .ok st := by
      simp only [parseStep]
      rw [if_pos hstrip]
    rw [hok] at h
    injection h with h2
    subst h2
    exact hc
  · rcases hp : parseLineCs (pstripCs line.data) with _ | ⟨lvl, oid, tg, ov⟩
    · have her : parseStep st line = .error .notImplementedError := by
        simp only [parseStep]
        rw [if_neg hstrip]
        simp only [hp]
      rw [her] at h
      cases h
    · by_cases h0 : lvl = 0
      · subst h0
        rw [parseStep_zero st line oid tg ov hstrip hp] at h
        injection h with h2
        subst h2
        intro k πk hm
        rcases mem_ptrUpd st.pointers oid [st.forest.length] k πk hm with hold | ⟨ho, hπ⟩
        · obtain ⟨e, hge, hid⟩ := hc k πk hold
          obtain ⟨E', hg', -, -, -, hid'⟩ :=
            getAtF_appendChildAt_other πk st.forest []
              (Element.mk (some ((0 : Nat) : Int)) tg ov oid []) e hge
          exact ⟨E', hg', by rw [hid', hid]⟩
        · subst hπ
          subst ho
          refine ⟨Element.mk (some ((0 : Nat) : Int)) tg ov (some k) [], ?_, rfl⟩
          show getAtF (st.forest ++ [Element.mk (some ((0 : Nat) : Int)) tg ov (some k) []])
              [st.forest.length] =
            some (Element.mk (some ((0 : Nat) : Int)) tg ov (some k) [])
          rw [getAtF_cons_nil, get_append_length]
      · have h1 : 1 ≤ lvl := Nat.one_le_iff_ne_zero.mpr h0
        rcases hdf : dictFind (dictBelow st.dict lvl) (lvl - 1) with _ | ρ
        · rw [parseStep_orphan st line lvl oid tg ov hstrip hp h1 hdf] at h
          cases h
        · rcases hget : getAtF st.forest ρ with _ | E
          · have her : parseStep st line = .error .keyError := by
              simp only [parseStep]
              rw [if_neg hstrip]
              simp only [hp]
              rw [if_neg h0]
              simp only [hdf, hget]
            rw [her] at h
            cases h
          · rw [parseStep_sub st line lvl oid tg ov ρ E hstrip hp h1 hdf hget] at h
            injection h with h2
            subst h2
            intro k πk hm
            rcases mem_ptrUpd st.pointers oid (ρ ++ [E.child_elements.length]) k πk hm
              with hold | ⟨ho, hπ⟩
            · obtain ⟨e, hge, hid⟩ := hc k πk hold
              obtain ⟨E', hg', -, -, -, hid'⟩ :=
                getAtF_appendChildAt_other πk st.forest ρ
                  (Element.mk (some (lvl : Int)) tg ov oid []) e hge
              exact ⟨E', hg', by rw [hid', hid]⟩
            · subst hπ
              subst ho
              rcases ρ with _ | ⟨i, ρ'⟩
              · exact Option.noConfusion hget
              · have hcc : childCount st.forest (i :: ρ') = some E.child_elements.length := by
                  rw [childCount_cons_eq, hget]
                  rfl
                refine ⟨Element.mk (some (lvl : Int)) tg ov (some k) [], ?_, rfl⟩
                exact getAtF_appendChildAt_new (i :: ρ') st.forest E.child_elements.length
                  (Element.mk (some (lvl : Int)) tg ov (some k) []) hcc

theorem parseAllFrom_pointers :
    ∀ (ls : List String) (st st' : PState),
      parseAllFrom st ls = .ok st' →
      (∀ (k : String) (πk : TreePath), (k, πk) ∈ st.pointers →
        ∃ e, getAtF st.forest πk = some e ∧ e.id = some k) →
      ∀ (k : String) (πk : TreePath), (k, πk) ∈ st'.pointers →
        ∃ e, getAtF st'.forest πk = some e ∧ e.id = some k := by
  intro ls
  induction ls with
  | nil =>
    intro st st' h hc
    replace h : Except.ok st = Except.ok st' := h
    injection h with h2
    subst h2
    exact hc
  | cons l ls ih =>
    intro st st' h hc
    replace h : (match parseStep st l with
      | .error er => .error er
      | .ok st1 => parseAllFrom st1 ls) = Except.ok st' := h
    rcases hps : parseStep st l with er | st1
    · simp only [hps] at h
      cases h
    · simp only [hps] at h
      exact ih st1 st' h (parseStep_pointers st st1 l hps hc)

/-- C4 counterexample: two level-0 lines carry the same pointer id
`@I1@`, yet parsing SUCCEEDS — no duplicate-pointer error is raised at
the conflict (or ever).  `add_element` silently overwrites the earlier
binding, so the pointer table ends up mapping `@I1@` to the second
element only (path `[1]`). -/
theorem c4_duplicate_counterexample :
    parseAll ["0 @I1@ INDI", "0 @I1@ INDI"] =
      .ok { forest := [Element.mk (some ((0 : Nat) : Int)) "INDI" none (some "@I1@") [],
                       Element.mk (some ((0 : Nat) : Int)) "INDI" none (some "@I1@") []],
            dict := [(0, [1])],
            pointers := [("@I1@", [1])] } := rfl

/-- C4 (amended): parsing never fails on a duplicate pointer id —
`add_element` silently rebinds the id to the most recently parsed
element bearing it.  What does hold is pointer-table consistency: after
every successful parse, every entry of the pointer table maps its id to
an element of the document that carries exactly that id as its own
`id`. -/
theorem c4_pointer_consistency (ls : List String) (st : PState)
    (h : parseAll ls = .ok st) :
    ∀ (k : String) (πk : TreePath), (k, πk) ∈ st.pointers →
      ∃ e, getAtF st.forest πk = some e ∧ e.id = some k :=
  parseAllFrom_pointers ls { forest := [], dict := [], pointers := [] } st h
    (fun _ _ hm => absurd hm (List.not_mem_nil _))

/-- C4 witness: the consistency theorem applied to the one-line document
`0 @I1@ INDI`, at the table entry for `@I1@`. -/
theorem c4_pointer_consistency_witness :
    ∃ e, getAtF [Element.mk (some ((0 : Nat) : Int)) "INDI" none (some "@I1@") []]
        [0] = some e ∧ e.id = some "@I1@" :=
  c4_pointer_consistency ["0 @I1@ INDI"]
    { forest := [Element.mk (some ((0 : Nat) : Int)) "INDI" none (some "@I1@") []],
      dict := [(0, [0])],
      pointers := [("@I1@", [0])] } rfl "@I1@" [0] (by decide)

/-- C5 counterexample: the line `0 NOTE Hello ` carries a trailing space
in its value position, yet the parsed element stores value `Hello` —
`__parse` runs `line.strip()` on the whole line before matching, so the
value is NOT taken verbatim: trailing (and leading) whitespace of the
line is trimmed, not just a trailing newline. -/
theorem c5_verbatim_counterexample :
    parseAll ["0 NOTE Hello "] =
      .ok { forest := [Element.mk (some ((0 : Nat) : Int)) "NOTE" (some "Hello") none []],
            dict := [(0, [0])],
            pointers := [] } ∧
    ("Hello" : String) ≠ "Hello " := ⟨rfl, by decide⟩

/-- C5 (amended): `__parse` first strips leading and trailing Python
whitespace from the WHOLE line; on the stripped line the value is the
remainder after the tag taken verbatim, internal whitespace and case
preserved.  Hence formatting is an exact inverse exactly on lines whose
value is nonempty with no newline and no trailing whitespace: for any
level, tag and such a value, the formatted line re-parses to the same
level, tag and the verbatim value, and a one-line level-0 document
round-trips through `parseAll` to the identical element. -/
theorem c5_value_after_strip (lvl : Nat) (tg v : String)
    (ht : tagOK tg = true) (hv : valueWf (some v) = true) :
    parseLineCs (pstripCs
        (formatLineCs (Element.mk (some (lvl : Int)) tg (some v) none []))) =
      some (lvl, none, tg, some v) ∧
    parseAll [formatLine (Element.mk (some ((0 : Nat) : Int)) tg (some v) none [])] =
      .ok { forest := [Element.mk (some ((0 : Nat) : Int)) tg (some v) none []],
            dict := [(0, [0])],
            pointers := [] } := by
  have hvs : valueSerialOK (some v) = true := valueWf_serial (some v) hv
  have hvne : v ≠ "" := by
    intro hcon
    subst hcon
    exact absurd hv (by decide)
  have hnorm : valueNorm (some v) = some v := by
    simp only [valueNorm]
    rw [if_neg hvne]
  obtain ⟨hstr, hpar⟩ := reparse_line
    (Element.mk (some (lvl : Int)) tg (some v) none []) lvl rfl ht rfl hvs
  obtain ⟨hstr0, hpar0⟩ := reparse_line
    (Element.mk (some ((0 : Nat) : Int)) tg (some v) none []) 0 rfl ht rfl hvs
  constructor
  · rw [hstr, hpar]
    show some (lvl, none, tg, valueNorm (some v)) = some (lvl, none, tg, some v)
    rw [hnorm]
  · have hdata : (formatLine (Element.mk (some ((0 : Nat) : Int)) tg (some v) none [])).data
        = formatLineCs (Element.mk (some ((0 : Nat) : Int)) tg (some v) none []) := rfl
    have hstrip0 : pstripCs
        (formatLine (Element.mk (some ((0 : Nat) : Int)) tg (some v) none [])).data ≠ [] := by
      rw [hdata, hstr0]
      exact formatLineCs_ne_nil (Element.mk (some ((0 : Nat) : Int)) tg (some v) none []) 0 rfl
    have hparse0 : parseLineCs (pstripCs
        (formatLine (Element.mk (some ((0 : Nat) : Int)) tg (some v) none [])).data) =
        some (0, none, tg, some v) := by
      rw [hdata, hstr0, hpar0]
      show some (0, none, tg, valueNorm (some v)) = some (0, none, tg, some v)
      rw [hnorm]
    have hps := parseStep_zero { forest := [], dict := [], pointers := [] }
      (formatLine (Element.mk (some ((0 : Nat) : Int)) tg (some v) none []))
      none tg (some v) hstrip0 hparse0
    show parseAllFrom { forest := [], dict := [], pointers := [] }
      [formatLine (Element.mk (some ((0 : Nat) : Int)) tg (some v) none [])] = _
    simp only [parseAllFrom, hps]
    rfl

/-- C5 witness: the amended theorem at level 3 (and level 0 for the full
parse), tag `NOTE` and the value `Hello  world`, whose internal double
space survives verbatim. -/
theorem c5_value_after_strip_witness :
    tagOK "NOTE" = true ∧ valueWf (some "Hello  world") = true ∧
    (parseLineCs (pstripCs (formatLineCs
        (Element.mk (some ((3 : Nat) : Int)) "NOTE" (some "Hello  world") none []))) =
        some (3, none, "NOTE", some "Hello  world") ∧
      parseAll [formatLine
          (Element.mk (some ((0 : Nat) : Int)) "NOTE" (some "Hello  world") none [])] =
        .ok { forest :=
                [Element.mk (some ((0 : Nat) : Int)) "NOTE" (some "Hello  world") none []],
              dict := [(0, [0])],
              pointers := [] }) :=
  ⟨by decide, by decide,
    c5_value_after_strip 3 "NOTE" "Hello  world" (by decide) (by decide)⟩
